import Mathlib

/-!
# proxypool: pool management and health-check engine

A shallow embedding of `src/pool/pool.go`.

* A `*proxyNode` is an address `Ptr` into a `Heap` of node records, so that two
  registry entries may share one node, as in the source.
* The embedded `sync.Map` is an association list with pairwise distinct keys;
  `Range` visits the entries in list order (the order Go leaves unspecified is
  whatever order the list has).
* `uint64`/`uint32`/`int64` fields are `Nat`/`Int` with explicit wrap-around.
* A slice is a `List`; the `nil` slice is `[]`.
* A run-time panic (index out of range) is `none`.
-/

namespace ProxyPool

/-! ## Machine integers -/

/-- Two's complement wrap of an integer into the `int64` range. -/
def wrapInt64 (x : Int) : Int := (x + 2 ^ 63) % 2 ^ 64 - 2 ^ 63

/-- The function `atomic.AddInt64(&v, d)`: the new value of `v`. -/
def addInt64 (v d : Int) : Int := wrapInt64 (v + d)

/-- The function `atomic.AddUint64(&v, d)`: the new value of `v`. -/
def addUint64 (v d : Nat) : Nat := (v + d) % 2 ^ 64

/-- The constant `^uint64(0)`. -/
def maxUint64 : Nat := 2 ^ 64 - 1

/-- The function `atomic.CompareAndSwapUint32(&v, old, new)`: the new value of `v`
and whether the swap happened. -/
def casUint32 (v old new : Nat) : Nat × Bool :=
  if v = old then (new, true) else (v, false)

/-! ## Data model -/

/-- The struct `proxyNode` without its dialer `fn`, whose results are supplied
as inputs wherever the source calls it. -/
structure proxyNode where
  flags : Nat
  exit : Nat
  total : Int
  okcnt : Int
  failcnt : Int
  timeout : Int
  usability : Int
  last : Int
  count : Int
  deriving DecidableEq, Repr

/-- A `*proxyNode`. -/
abbrev Ptr := Nat

/-- The nodes that exist, by address. -/
abbrev Heap := Ptr → proxyNode

/-- A key of the registry (an `interface{}` in the source). -/
abbrev Key := Nat

/-- A value of the registry (an `interface{}` in the source): a `*proxyNode`, or
anything else, on which the type assertion `value.(*proxyNode)` fails. -/
inductive Value where
  | node (p : Ptr)
  | other (tag : Nat)
  deriving DecidableEq, Repr

/-- The struct `proxyManager`; `entries` is the embedded `sync.Map`. -/
structure proxyManager where
  entries : List (Key × Value)
  idx : Nat
  length : Nat
  flags : Nat
  lists : List Ptr
  deriving DecidableEq, Repr

/-- The function `NewProxyNode(fn)` for a non-nil `fn`: the node it allocates. -/
def NewProxyNode : proxyNode :=
  { flags := 0, exit := 0, total := 0, okcnt := 0, failcnt := 0, timeout := 0,
    usability := 0, last := 0, count := 0 }

/-- The function `NewProxyManager()`. -/
def NewProxyManager : proxyManager :=
  { entries := [], idx := 0, length := 0, flags := 0, lists := [] }

/-- Write `n` at address `p`. -/
def Heap.set (h : Heap) (p : Ptr) (n : proxyNode) : Heap :=
  fun q => if q = p then n else h q

/-! ## The embedded `sync.Map` -/

/-- The method `sync.Map.Load`. -/
def mapLoad (es : List (Key × Value)) (key : Key) : Option Value :=
  match es with
  | [] => none
  | (k, v) :: rest => if k = key then some v else mapLoad rest key

/-- The method `sync.Map.Store`: overwrite the value of a present key, add an
absent one. -/
def mapStore (es : List (Key × Value)) (key : Key) (value : Value) : List (Key × Value) :=
  match es with
  | [] => [(key, value)]
  | (k, v) :: rest =>
    if k = key then (key, value) :: rest else (k, v) :: mapStore rest key value

/-- The method `sync.Map.Delete`. -/
def mapDelete (es : List (Key × Value)) (key : Key) : List (Key × Value) :=
  es.filter (fun e => decide (e.1 ≠ key))

/-- The keys held by the map. -/
def mapKeys (es : List (Key × Value)) : List Key := es.map Prod.fst

/-! ## Registry operations -/

namespace proxyManager

/-- The method `proxyManager.Store`: `defer atomic.AddUint64(&this.length, 1)`
around `this.Map.Store(key, value)`. -/
def Store (m : proxyManager) (key : Key) (value : Value) : proxyManager :=
  { m with entries := mapStore m.entries key value, length := addUint64 m.length 1 }

/-- The method `proxyManager.Delete`:
`defer atomic.AddUint64(&this.length, ^uint64(0))` around `this.Map.Delete(key)`. -/
def Delete (m : proxyManager) (key : Key) : proxyManager :=
  { m with entries := mapDelete m.entries key, length := addUint64 m.length maxUint64 }

/-- The method `proxyManager.Len`: `int(atomic.LoadUint64(&this.length))`, with a
64 bit `int`. -/
def Len (m : proxyManager) : Int :=
  if m.length < 2 ^ 63 then (m.length : Int) else (m.length : Int) - 2 ^ 64

/-- The method `proxyManager.IsExist`. -/
def IsExist (m : proxyManager) (key : Key) : Bool :=
  (mapLoad m.entries key).isSome

/-- The method `proxyManager.Add`. -/
def Add (m : proxyManager) (p : Ptr) : proxyManager × Nat :=
  let idx := (addUint64 m.idx 1 + maxUint64) % 2 ^ 64
  (Store { m with idx := addUint64 m.idx 1 } idx (Value.node p), idx)

/-- The method `LoadOrStore`, which `proxyManager` does not define: the call
goes to the embedded `sync.Map`, and nothing else of the registry changes. The
result is the registry afterwards, the value now held under the key, and
whether it was there before. -/
def LoadOrStore (m : proxyManager) (key : Key) (value : Value) :
    proxyManager × Value × Bool :=
  match mapLoad m.entries key with
  | some actual => (m, actual, true)
  | none => ({ m with entries := mapStore m.entries key value }, value, false)

end proxyManager

/-- A call on the registry through its `Map` interface. -/
inductive MapCall where
  | store (key : Key) (value : Value)
  | delete (key : Key)
  | loadOrStore (key : Key) (value : Value)
  deriving DecidableEq, Repr

/-- Apply one call. -/
def MapCall.apply (m : proxyManager) : MapCall → proxyManager
  | MapCall.store k v => m.Store k v
  | MapCall.delete k => m.Delete k
  | MapCall.loadOrStore k v => (m.LoadOrStore k v).1

/-- Apply a sequence of calls, first to last. -/
def applyCalls (m : proxyManager) (cs : List MapCall) : proxyManager :=
  cs.foldl MapCall.apply m

/-! ## `float64` arithmetic

Finite values are kept exactly, as `(-1) ^ neg * man * 2 ^ exp`; every operation
rounds its exact result to 53 significant bits, to nearest, ties to even. The
exponent range is not modelled: the operands of this program come from `int64`
values, and no result leaves the range of normal `float64` numbers. -/

/-- Position of the top bit: `bitLog f n = ⌊log₂ n⌋` whenever `n ≤ f`. -/
def bitLog : Nat → Nat → Nat
  | 0, _ => 0
  | f + 1, n => if n < 2 then 0 else bitLog f (n / 2) + 1

/-- The number `⌊log₂ n⌋` (and 0 for `n = 0`). -/
def log2 (n : Nat) : Nat := bitLog n n

/-- The fraction `num / den` rounded to the nearest integer, a tie to the even one. -/
def roundHalfEven (num den : Nat) : Nat :=
  if 2 * (num % den) < den then num / den
  else if den < 2 * (num % den) then num / den + 1
  else if (num / den) % 2 = 0 then num / den else num / den + 1

/-- The exponent `e` with `2 ^ e ≤ num / den < 2 ^ (e + 1)`, for positive `num`, `den`. -/
def binade (num den : Nat) : Int :=
  if den * 2 ^ log2 num ≤ num * 2 ^ log2 den then (log2 num : Int) - (log2 den : Int)
  else (log2 num : Int) - (log2 den : Int) - 1

/-- The fraction `num / den * 2 ^ s`, as numerator and denominator. -/
def scale (num den : Nat) (s : Int) : Nat × Nat :=
  if 0 ≤ s then (num * 2 ^ s.toNat, den) else (num, den * 2 ^ (-s).toNat)

/-- The magnitude `num / den` rounded to 53 significant bits: the result
`(man, exp)` stands for `man * 2 ^ exp`. -/
def round53 (num den : Nat) : Nat × Int :=
  if num = 0 then (0, 0)
  else
    (roundHalfEven (scale num den (52 - binade num den)).1 (scale num den (52 - binade num den)).2,
      binade num den - 52)

/-- A `float64`. -/
inductive Float64 where
  | finite (neg : Bool) (man : Nat) (exp : Int)
  | inf (neg : Bool)
  | nan
  deriving DecidableEq, Repr

namespace Float64

/-- The conversion `float64(x)` of an integer. -/
def ofInt (x : Int) : Float64 :=
  finite (decide (x < 0)) (round53 x.natAbs 1).1 (round53 x.natAbs 1).2

/-- The quotient `x / y`. -/
def div : Float64 → Float64 → Float64
  | nan, _ => nan
  | _, nan => nan
  | inf _, inf _ => nan
  | inf s, finite t _ _ => inf (xor s t)
  | finite s _ _, inf t => finite (xor s t) 0 0
  | finite s m e, finite t n f =>
    if n = 0 then (if m = 0 then nan else inf (xor s t))
    else
      finite (xor s t) (round53 (scale m n (e - f)).1 (scale m n (e - f)).2).1
        (round53 (scale m n (e - f)).1 (scale m n (e - f)).2).2

/-- The product `x * y`. -/
def mul : Float64 → Float64 → Float64
  | nan, _ => nan
  | _, nan => nan
  | inf s, inf t => inf (xor s t)
  | inf s, finite t n _ => if n = 0 then nan else inf (xor s t)
  | finite s m _, inf t => if m = 0 then nan else inf (xor s t)
  | finite s m e, finite t n f =>
    finite (xor s t) (round53 (scale (m * n) 1 (e + f)).1 (scale (m * n) 1 (e + f)).2).1
      (round53 (scale (m * n) 1 (e + f)).1 (scale (m * n) 1 (e + f)).2).2

/-- The conversion `int64(x)`: truncation toward zero. Where the value is not
an `int64` Go leaves the result to the implementation; it is `-2 ^ 63` here,
as on amd64. -/
def toInt64 : Float64 → Int
  | nan => -2 ^ 63
  | inf _ => -2 ^ 63
  | finite s m e =>
    let t : Int := ((scale m 1 e).1 / (scale m 1 e).2 : Nat)
    let v : Int := if s then -t else t
    if -2 ^ 63 ≤ v ∧ v < 2 ^ 63 then v else -2 ^ 63

end Float64

/-! ## Proxy node -/

namespace proxyNode

/-- The method `proxyNode.Close`. -/
def Close (n : proxyNode) : proxyNode :=
  { n with exit := (casUint32 n.exit 0 1).1 }

/-- The expression
`int64((float64(okcnt) / float64(total)) * 100.0)` of `StartCheck`. -/
def usabilityOf (okcnt total : Int) : Int :=
  Float64.toInt64
    (Float64.mul (Float64.div (Float64.ofInt okcnt) (Float64.ofInt total)) (Float64.ofInt 100))

/-- The loop `for i := 0; ratio > i; i++ { result *= 5 / 3 }` of `slow`, with
`k` iterations left. The constant expression `5 / 3` has two integer operands,
so it is the integer quotient, converted to `float64` for the product. -/
def slowLoop : Nat → Float64 → Float64
  | 0, result => result
  | k + 1, result => slowLoop k (Float64.mul result (Float64.ofInt (5 / 3)))

/-- The method `proxyNode.slow`: the `time.Duration` it returns (nanoseconds). -/
def slow (ratio : Int) : Int :=
  Float64.toInt64 (slowLoop ratio.toNat (Float64.ofInt 3))

/-- The method `proxyNode.before`. -/
def before (this x : proxyNode) : Bool :=
  decide (x.usability < this.usability) && decide (x.last < this.last)

end proxyNode

/-- The constant `time.Second`, in nanoseconds. -/
def timeSecond : Int := 1000000000

/-- What one iteration of the probe loop gets from outside. -/
structure ProbeInput where
  /-- The value `now.UnixNano()`. -/
  now : Int
  /-- Whether `this.fn(network, address)` returned a nil error. -/
  dialOk : Bool
  /-- What `checker.CheckConn(conn)` returned (read only after a good dial). -/
  checkOk : Bool
  /-- The value `time.Since(now).Nanoseconds()` (read only after a good check). -/
  elapsed : Int
  deriving DecidableEq, Repr

/-- The counters after the dial and the check of one iteration of the loop of
`StartCheck` (the lines from `atomic.AddInt64(&this.total, 1)` to the end of the
`if`). -/
def probeOutcome (n : proxyNode) (r : ProbeInput) : proxyNode :=
  let n1 := { n with total := addInt64 n.total 1 }
  if r.dialOk then
    if r.checkOk then
      { n1 with okcnt := addInt64 n1.okcnt 1, failcnt := 0,
                timeout := Int.tdiv r.elapsed 1000000 }
    else
      { n1 with failcnt := addInt64 n1.failcnt 1 }
  else
    { n1 with failcnt := addInt64 n1.failcnt 1 }

/-- One iteration of the loop of `StartCheck`, up to the sleep. -/
def probeRound (n : proxyNode) (r : ProbeInput) : proxyNode :=
  let n2 := probeOutcome n r
  { n2 with usability := proxyNode.usabilityOf n2.okcnt n2.total, last := r.now }

/-- The sleep that ends an iteration:
`this.slow(int(failcnt / 3)) * time.Second`, in nanoseconds. -/
def probeSleep (n : proxyNode) : Int :=
  wrapInt64 (proxyNode.slow (Int.tdiv n.failcnt 3) * timeSecond)

/-- A sequence of iterations of the probe loop. -/
def probeRounds (n : proxyNode) (rs : List ProbeInput) : proxyNode :=
  rs.foldl probeRound n

/-! ## Wrapped connection -/

/-- The struct `proxyConn`: the embedded `net.Conn` (a handle) and the node. -/
structure proxyConn where
  Conn : Nat
  node : Option Ptr
  deriving DecidableEq, Repr

/-- The method `proxyNode.Dial`, given what `this.fn(network, address)` returned
(an error, or a connection). -/
def proxyNode.Dial (h : Heap) (this : Ptr) (res : Except Nat Nat) :
    Heap × Except Nat proxyConn :=
  match res with
  | Except.ok conn =>
    (h.set this { h this with count := addInt64 (h this).count 1 },
      Except.ok { Conn := conn, node := some this })
  | Except.error err => (h, Except.error err)

/-- The method `proxyConn.Close`, given what `this.Conn.Close()` returned. -/
def proxyConn.Close (h : Heap) (this : proxyConn) (res : Option Nat) : Heap × Option Nat :=
  match this.node with
  | some p => (h.set p { h p with count := addInt64 (h p).count (-1) }, res)
  | none => (h, res)

/-- A traffic event on a node: a successful `Dial`, or `Close` on the `i`-th
connection that `Dial` has returned so far. -/
inductive ConnOp where
  | dial (conn : Nat)
  | close (i : Nat)
  deriving DecidableEq, Repr

/-- The node heap and the connections handed out so far. -/
structure ConnState where
  heap : Heap
  conns : List proxyConn

/-- Perform one traffic event on the node at `p`. -/
def ConnOp.apply (p : Ptr) (s : ConnState) : ConnOp → ConnState
  | ConnOp.dial conn =>
    match (proxyNode.Dial s.heap p (Except.ok conn)).2 with
    | Except.ok c =>
      { heap := (proxyNode.Dial s.heap p (Except.ok conn)).1, conns := s.conns ++ [c] }
    | Except.error _ => { s with heap := (proxyNode.Dial s.heap p (Except.ok conn)).1 }
  | ConnOp.close i =>
    match s.conns.get? i with
    | some c => { s with heap := (proxyConn.Close s.heap c none).1 }
    | none => s

/-- Perform a sequence of traffic events, first to last. -/
def runConnOps (p : Ptr) (s : ConnState) (ops : List ConnOp) : ConnState :=
  ops.foldl (ConnOp.apply p) s

/-- How often `Close` is called on connection `i` in `ops`. -/
def closeCalls (ops : List ConnOp) (i : Nat) : Nat :=
  ops.count (ConnOp.close i)

/-- The number of `Dial` events in `ops`. -/
def dialCount : List ConnOp → Nat
  | [] => 0
  | ConnOp.dial _ :: rest => dialCount rest + 1
  | ConnOp.close _ :: rest => dialCount rest

/-! ## Pruning and ranking -/

/-- The method `sync.Map.Range`, for a visitor that always returns `true`: the
visitor sees every entry of `es` once, in order, and updates the state. The
visitors of this package remove no entry but the one they are visiting. -/
def mapRange {σ : Type} (es : List (Key × Value)) (f : Key → Value → σ → σ) (s : σ) : σ :=
  es.foldl (fun acc e => f e.1 e.2 acc) s

/-- The visitor of `CloseBad`, for the clamped threshold `t`. -/
def closeBadVisit (t : Int) (key : Key) (value : Value) (s : Heap × proxyManager) :
    Heap × proxyManager :=
  match value with
  | Value.node p =>
    if t < (s.1 p).failcnt then (s.1.set p (s.1 p).Close, s.2.Delete key) else s
  | Value.other _ => s

/-- The method `proxyManager.CloseBad`. -/
def proxyManager.CloseBad (h : Heap) (m : proxyManager) (t : Int) : Heap × proxyManager :=
  mapRange m.entries (closeBadVisit (if 3 > t then 3 else t)) (h, m)

/-- The visitor of `GetSortList`. -/
def sortListVisit (_key : Key) (value : Value) (m : proxyManager) : proxyManager :=
  match value with
  | Value.node p => { m with lists := m.lists ++ [p] }
  | Value.other _ => m

/-- The method `proxyManager.Less`; `none` when an index is out of range. -/
def proxyManager.Less (h : Heap) (m : proxyManager) (i j : Nat) : Option Bool :=
  match m.lists.get? i, m.lists.get? j with
  | some a, some b => some ((h a).before (h b))
  | _, _ => none

/-- The method `proxyManager.Swap`; `none` when an index is out of range. -/
def proxyManager.Swap (m : proxyManager) (i j : Nat) : Option proxyManager :=
  match m.lists.get? i, m.lists.get? j with
  | some a, some b => some { m with lists := (m.lists.set i b).set j a }
  | _, _ => none

/-- The inner loop of `insertionSort` in Go's package `sort`:
`for j := i; j > a && data.Less(j, j-1); j-- { data.Swap(j, j-1) }`, entered
with the current `j`. -/
def insertionInner (h : Heap) (a : Nat) : Nat → proxyManager → Option proxyManager
  | 0, m => some m
  | j + 1, m =>
    if a < j + 1 then
      match m.Less h (j + 1) j with
      | none => none
      | some false => some m
      | some true =>
        match m.Swap (j + 1) j with
        | none => none
        | some m1 => insertionInner h a j m1
    else some m

/-- The outer loop of `insertionSort`: `for i := a + 1; i < b; i++`, entered
with the current `i` and `k` iterations left. -/
def insertionOuter (h : Heap) (a : Nat) : Nat → Nat → proxyManager → Option proxyManager
  | 0, _, m => some m
  | k + 1, i, m =>
    match insertionInner h a i m with
    | none => none
    | some m1 => insertionOuter h a k (i + 1) m1

/-- The function `insertionSort(data, a, b)` of Go's package `sort`. -/
def insertionSort (h : Heap) (m : proxyManager) (a b : Nat) : Option proxyManager :=
  insertionOuter h a (b - (a + 1)) (a + 1) m

/-- What `sort.Sort` does with more than 6 elements: there the algorithm of the
Go library differs between releases (a shell pass before the insertion sort up
to 12 elements, quicksort or pattern-defeating quicksort above). It is not part
of this repository and is taken as a parameter, which gets the registry and the
element count `n`. -/
abbrev LargeSort := Heap → proxyManager → Nat → Option proxyManager

/-- The call `sort.Sort(this)`: `n := data.Len()`, nothing to do for `n ≤ 1`,
and `insertionSort(data, 0, n)` for `n ≤ 6`, as in every release of the Go
library. -/
def sortSort (large : LargeSort) (h : Heap) (m : proxyManager) : Option proxyManager :=
  if m.Len ≤ 1 then some m
  else if m.Len ≤ 6 then insertionSort h m 0 m.Len.toNat
  else large h m m.Len.toNat

/-- The method `proxyManager.GetSortList`: the registry afterwards and the list
returned, `none` for a run-time panic. `make` panics on a negative capacity
`Len()` (the allocation is taken to succeed otherwise), `sort.Sort` panics when
`Less` or `Swap` does. A panic leaves the claim flag set; the deferred function
clears `lists` in every case. -/
def proxyManager.GetSortList (large : LargeSort) (h : Heap) (m : proxyManager) :
    proxyManager × Option (List Ptr) :=
  if (casUint32 m.flags 0 1).2 then
    if m.Len < 0 then
      ({ m with flags := 1, lists := [] }, none)
    else
      match sortSort large h
          (mapRange m.entries sortListVisit { m with flags := 1, lists := [] }) with
      | none => ({ m with flags := 1, lists := [] }, none)
      | some m1 => ({ m1 with flags := 0, lists := [] }, some m1.lists)
  else (m, some [])

/-! ## Invariants -/

/-- The counters of a node that has completed `k` rounds since `NewProxyNode`. -/
def ProbeInv (k : Nat) (n : proxyNode) : Prop :=
  n.total = k ∧ 0 ≤ n.okcnt ∧ n.okcnt ≤ k ∧ 0 ≤ n.failcnt ∧ n.failcnt ≤ k

/-! ## Sample data -/

/-- Three probed nodes: at 0 a node B (usability 50, probed at 2000), at 1 a
node X (usability 90, probed at 1000), elsewhere a node A (usability 80,
probed at 3000). -/
def rankHeap : Heap := fun p =>
  match p with
  | 0 => { NewProxyNode with total := 2, okcnt := 1, usability := 50, last := 2000 }
  | 1 => { NewProxyNode with total := 10, okcnt := 9, failcnt := 1, usability := 90, last := 1000 }
  | _ => { NewProxyNode with total := 5, okcnt := 4, usability := 80, last := 3000 }

/-- A registry of the three nodes of `rankHeap`, which `Range` visits in the
order B, X, A. -/
def rankRegistry : proxyManager :=
  applyCalls NewProxyManager
    [MapCall.store 10 (Value.node 0), MapCall.store 11 (Value.node 1),
      MapCall.store 12 (Value.node 2)]

/-- Whether `CloseBad` with the clamped threshold `t` keeps an entry, by the
heap `h` at the time of the call. -/
def closeBadKeeps (h : Heap) (t : Int) (e : Key × Value) : Bool :=
  match e.2 with
  | Value.node p => decide ((h p).failcnt ≤ t)
  | Value.other _ => true

/-- The nodes that the entries `es` point to. -/
def entryPtrs : List (Key × Value) → List Ptr
  | [] => []
  | (_, Value.node p) :: rest => p :: entryPtrs rest
  | (_, Value.other _) :: rest => entryPtrs rest

/-- A node X with 10 consecutive failures at 0, a node Y with 2 elsewhere. -/
def pruneHeap : Heap := fun p =>
  match p with
  | 0 => { NewProxyNode with total := 12, okcnt := 2, failcnt := 10, usability := 16, last := 900 }
  | _ => { NewProxyNode with total := 12, okcnt := 10, failcnt := 2, usability := 83, last := 950 }

/-- A registry holding X under key 20 and Y under key 21. -/
def pruneRegistry : proxyManager :=
  applyCalls NewProxyManager [MapCall.store 20 (Value.node 0), MapCall.store 21 (Value.node 1)]

/-- The number of `Close` events in `ops`. -/
def closeCount : List ConnOp → Nat
  | [] => 0
  | ConnOp.dial _ :: rest => closeCount rest
  | ConnOp.close _ :: rest => closeCount rest + 1

/-- Whether every `Close` in `ops` is on a connection that `Dial` has returned
before it, `n` connections having been returned before `ops`. -/
def validOps : Nat → List ConnOp → Bool
  | _, [] => true
  | n, ConnOp.dial _ :: rest => validOps (n + 1) rest
  | n, ConnOp.close i :: rest => decide (i < n) && validOps n rest

/-- The number of connections dialled in `ops` on which `ops` has no `Close`. -/
def openCount (ops : List ConnOp) : Nat :=
  ((Finset.range (dialCount ops)).filter (fun i => closeCalls ops i = 0)).card

/-- A heap of fresh nodes and no connection handed out. -/
def freshConnState : ConnState :=
  { heap := fun _ => NewProxyNode, conns := [] }

/-- The rational number that mantissa `man` and exponent `exp` stand for. -/
def dyadic (man : Nat) (exp : Int) : ℚ := (man : ℚ) * (2 : ℚ) ^ exp

/-- The unit roundoff of `float64`. -/
def unitRoundoff : ℚ := 1 / 2 ^ 53

/-- A probe round whose dial and check succeed. -/
def goodRound : ProbeInput := { now := 1000, dialOk := true, checkOk := true, elapsed := 2000000 }

/-- A probe round whose dial fails. -/
def badRound : ProbeInput := { now := 1000, dialOk := false, checkOk := false, elapsed := 0 }

/-- Fifty probe rounds: 29 good ones, then 21 bad ones. -/
def fiftyRounds : List ProbeInput := List.replicate 29 goodRound ++ List.replicate 21 badRound

/-- A node after two probe rounds that both failed. -/
def twiceFailed : proxyNode := { NewProxyNode with total := 2, failcnt := 2, last := 900 }

/-- A registry with one entry, whose ranking flag is set. -/
def busyRegistry : proxyManager := { NewProxyManager.Store 7 (Value.node 0) with flags := 1 }

/-! ## Life cycle of a node -/

/-- The method `proxyNode.StartCheck` up to its `go` statement: the node
afterwards, and whether the probe goroutine was started. -/
def proxyNode.StartCheck (n : proxyNode) : proxyNode × Bool :=
  ({ n with flags := (casUint32 n.flags 0 1).1 }, (casUint32 n.flags 0 1).2)

/-- What the probe goroutine gets from outside in one pass through its loop: the
answer of `checker.IsExit()` at the loop head, and what the round gets if one
begins. -/
structure LoopInput where
  isExit : Bool
  probe : ProbeInput
  deriving DecidableEq, Repr

/-- Where a probe goroutine stands: the atomic operation of `StartCheck` that it
performs next. A round in flight carries the inputs `r` of that round, and, once
read, the values it has loaded for the usability. -/
inductive LoopPc where
  /-- The loop condition, `!checker.IsExit() && 0x0 == atomic.LoadUint32(&this.exit)`. -/
  | head
  /-- The call `atomic.AddInt64(&this.total, 1)`. -/
  | addTotal (r : ProbeInput)
  /-- The calls `this.fn(network, address)` and, after a good dial,
  `checker.CheckConn(conn)`. -/
  | dial (r : ProbeInput)
  /-- The call `atomic.AddInt64(&this.okcnt, 1)`. -/
  | addOk (r : ProbeInput)
  /-- The call `atomic.StoreInt64(&this.failcnt, 0)`. -/
  | resetFail (r : ProbeInput)
  /-- The call `atomic.StoreInt64(&this.timeout, ...)`. -/
  | storeTimeout (r : ProbeInput)
  /-- The call `atomic.AddInt64(&this.failcnt, 1)`, of either failure branch. -/
  | addFail (r : ProbeInput)
  /-- The call `atomic.LoadInt64(&this.okcnt)` of the usability update. -/
  | loadOkcnt (r : ProbeInput)
  /-- The call `atomic.LoadInt64(&this.total)` of the usability update. -/
  | loadTotal (r : ProbeInput) (okcnt : Int)
  /-- The call `atomic.StoreInt64(&this.usability, ...)`. -/
  | storeUsability (r : ProbeInput) (okcnt total : Int)
  /-- The call `atomic.StoreInt64(&this.last, now.UnixNano())`. -/
  | storeLast (r : ProbeInput)
  /-- The call `time.Sleep(...)` that ends the round. -/
  | sleep
  /-- The loop is left; the deferred `atomic.StoreUint32(&this.flags, 0x0)`. -/
  | deferred
  deriving DecidableEq, Repr

/-- The loop head of `StartCheck`: where the goroutine stands after it has
evaluated the loop condition. A round begins, or the loop is left. -/
def loopEnter (n : proxyNode) (i : LoopInput) : LoopPc :=
  if i.isExit = false ∧ n.exit = 0 then LoopPc.addTotal i.probe else LoopPc.deferred

/-- The next atomic operation of a probe goroutine that stands at `pc`: the node
afterwards and where the goroutine stands then, `none` when it has ended. At the
loop head nothing happens here: the loop condition is `loopEnter`. -/
def loopAdvance (n : proxyNode) : LoopPc → proxyNode × Option LoopPc
  | LoopPc.head => (n, some LoopPc.head)
  | LoopPc.addTotal r => ({ n with total := addInt64 n.total 1 }, some (LoopPc.dial r))
  | LoopPc.dial r =>
    (n, some (if r.dialOk then (if r.checkOk then LoopPc.addOk r else LoopPc.addFail r)
      else LoopPc.addFail r))
  | LoopPc.addOk r => ({ n with okcnt := addInt64 n.okcnt 1 }, some (LoopPc.resetFail r))
  | LoopPc.resetFail r => ({ n with failcnt := 0 }, some (LoopPc.storeTimeout r))
  | LoopPc.storeTimeout r =>
    ({ n with timeout := Int.tdiv r.elapsed 1000000 }, some (LoopPc.loadOkcnt r))
  | LoopPc.addFail r => ({ n with failcnt := addInt64 n.failcnt 1 }, some (LoopPc.loadOkcnt r))
  | LoopPc.loadOkcnt r => (n, some (LoopPc.loadTotal r n.okcnt))
  | LoopPc.loadTotal r okcnt => (n, some (LoopPc.storeUsability r okcnt n.total))
  | LoopPc.storeUsability r okcnt total =>
    ({ n with usability := proxyNode.usabilityOf okcnt total }, some (LoopPc.storeLast r))
  | LoopPc.storeLast r => ({ n with last := r.now }, some LoopPc.sleep)
  | LoopPc.sleep => (n, some LoopPc.head)
  | LoopPc.deferred => ({ n with flags := 0 }, none)

/-- Something that happens to a node. -/
inductive NodeEvent where
  /-- A call of `StartCheck`. -/
  | startCheck
  /-- The probe goroutine `g` of the node, standing at its loop head, evaluates
  the loop condition. -/
  | iterate (g : Nat) (i : LoopInput)
  /-- The probe goroutine `g` of the node performs its next atomic operation. -/
  | step (g : Nat)
  /-- A call of `Close`. -/
  | close
  /-- A call of `Dial`, with what the dialer returns. -/
  | dial (res : Except Nat Nat)
  /-- A call of `Close` on a connection that `Dial` has wrapped. -/
  | connClose
  deriving Repr

/-- A node and its probe goroutines that are alive, each with the place where
it stands. -/
structure NodeRun where
  node : proxyNode
  procs : List LoopPc
  deriving DecidableEq, Repr

/-- The number of probe loops of the node that are alive. -/
def NodeRun.loops (s : NodeRun) : Nat := s.procs.length

/-- Perform one event. An event of a goroutine that does not exist, or that
does not stand where the event takes place, changes nothing. -/
def NodeEvent.apply (s : NodeRun) : NodeEvent → NodeRun
  | NodeEvent.startCheck =>
    { node := s.node.StartCheck.1,
      procs := if s.node.StartCheck.2 then s.procs ++ [LoopPc.head] else s.procs }
  | NodeEvent.iterate g i =>
    match s.procs.get? g with
    | some LoopPc.head => { s with procs := s.procs.set g (loopEnter s.node i) }
    | _ => s
  | NodeEvent.step g =>
    match s.procs.get? g with
    | some pc =>
      match (loopAdvance s.node pc).2 with
      | some pc1 => { node := (loopAdvance s.node pc).1, procs := s.procs.set g pc1 }
      | none => { node := (loopAdvance s.node pc).1, procs := s.procs.eraseIdx g }
    | none => s
  | NodeEvent.close => { s with node := s.node.Close }
  | NodeEvent.dial res => { s with node := (proxyNode.Dial (fun _ => s.node) 0 res).1 0 }
  | NodeEvent.connClose =>
    { s with node := (proxyConn.Close (fun _ => s.node) { Conn := 0, node := some 0 } none).1 0 }

/-- Perform a sequence of events, first to last. -/
def runNode (s : NodeRun) (es : List NodeEvent) : NodeRun :=
  es.foldl NodeEvent.apply s

/-- Whether a goroutine that stands at `pc` has no round in flight: it is at
the loop head, asleep, or leaving. -/
def LoopPc.idle : LoopPc → Bool
  | LoopPc.head => true
  | LoopPc.sleep => true
  | LoopPc.deferred => true
  | _ => false

/-- Three nodes, each ahead of the next: usability 90, 80 and 50, probed at
3000, 2000 and 1000. -/
def chainHeap : Heap := fun p =>
  match p with
  | 0 => { NewProxyNode with total := 10, okcnt := 9, usability := 90, last := 3000 }
  | 1 => { NewProxyNode with total := 5, okcnt := 4, usability := 80, last := 2000 }
  | _ => { NewProxyNode with total := 2, okcnt := 1, usability := 50, last := 1000 }

/-- A node whose probe loop runs and on which `Close` has been called. -/
def closedNode : proxyNode :=
  { NewProxyNode with flags := 1, exit := 1, total := 4, okcnt := 3, failcnt := 0, timeout := 12,
                      usability := 75, last := 800 }

/-- A node whose probe loop runs. -/
def probingNode : proxyNode := { NewProxyNode with flags := 1, total := 1, failcnt := 1, last := 700 }

/-- The exit flag of a node and the statistics that its probe loop writes:
`exit`, `total`, `okcnt`, `failcnt`, `timeout`, `usability`, `last`. -/
def probeFields (n : proxyNode) : Nat × Int × Int × Int × Int × Int × Int :=
  (n.exit, n.total, n.okcnt, n.failcnt, n.timeout, n.usability, n.last)

/-- The probing flag of a node agrees with the number of its probe goroutines:
flag clear and none, or flag set and one. -/
def LoopInv (s : NodeRun) : Prop :=
  (s.node.flags = 0 ∧ s.procs.length = 0) ∨ (s.node.flags = 1 ∧ s.procs.length = 1)

/-- A heap of fresh nodes. -/
def freshHeap : Heap := fun _ => NewProxyNode

/-- A registry on which `Store` was called twice with the same key. -/
def restoredRegistry : proxyManager :=
  applyCalls NewProxyManager [MapCall.store 0 (Value.node 0), MapCall.store 0 (Value.node 0)]

/-- A registry of two nodes on which `Delete` was called with a key it does not
hold. -/
def overDeletedRegistry : proxyManager :=
  applyCalls NewProxyManager
    [MapCall.store 0 (Value.node 0), MapCall.store 1 (Value.node 1), MapCall.delete 5]

/-- A registry of two nodes, the second stored twice. -/
def threeStoresRegistry : proxyManager :=
  applyCalls NewProxyManager
    [MapCall.store 0 (Value.node 0), MapCall.store 1 (Value.node 1),
      MapCall.store 1 (Value.node 1)]

/-- A registry filled by `LoadOrStore` alone. -/
def loadOrStoreRegistry : proxyManager :=
  applyCalls NewProxyManager
    [MapCall.loadOrStore 0 (Value.node 0), MapCall.loadOrStore 1 (Value.node 1)]

/-- The list that `GetSortList` stages from the entries, before it sorts. -/
def stagedList (m : proxyManager) : List Ptr :=
  (mapRange m.entries sortListVisit { m with flags := 1, lists := [] }).lists

/-- A registry of the nodes B and A of `rankHeap`, B stored first. -/
def twoNodeRegistry : proxyManager :=
  applyCalls NewProxyManager [MapCall.store 10 (Value.node 0), MapCall.store 12 (Value.node 2)]

/-- Two registries that differ in the order of the staged list only. -/
def SameButOrder (m1 m : proxyManager) : Prop :=
  m1.lists.Perm m.lists ∧ m1.entries = m.entries ∧ m1.length = m.length
    ∧ m1.flags = m.flags ∧ m1.idx = m.idx

/-- Whether no probe goroutine of the node has a round in flight. -/
def NodeRun.quiet (s : NodeRun) : Bool := s.procs.all LoopPc.idle

/-- A fresh node with no probe goroutine. -/
def freshRun : NodeRun := { node := NewProxyNode, procs := [] }

/-- The events of a probe that `Close` overtakes: `StartCheck`, the loop head
lets a good round begin, `Close` is called, and the goroutine then performs the
ten atomic operations that bring it back to the loop head. -/
def overtakenRound : List NodeEvent :=
  [NodeEvent.startCheck, NodeEvent.iterate 0 { isExit := false, probe := goodRound },
    NodeEvent.close] ++ List.replicate 10 (NodeEvent.step 0)

/-- The registry of the nodes B and A of `rankHeap`, B stored first, after a
`Delete` of a key that it does not hold. -/
def staleTwoNodeRegistry : proxyManager :=
  applyCalls NewProxyManager
    [MapCall.store 10 (Value.node 0), MapCall.store 12 (Value.node 2), MapCall.delete 5]

/-- The registry of the nodes B and A of `rankHeap`, B stored first, A stored
twice. -/
def restoredTwoNodeRegistry : proxyManager :=
  applyCalls NewProxyManager
    [MapCall.store 10 (Value.node 0), MapCall.store 12 (Value.node 2),
      MapCall.store 12 (Value.node 2)]

/-! ## Theorems -/

/-- C1 (fails on the code): `Len()` does not follow the number of keys held.
After `Store(0, a); Store(0, a)` on a fresh registry one key is held and `Len()`
is 2; after `Delete(0)` on a fresh registry no key is held and `Len()` is -1. -/
theorem C1_len_counts_calls_not_keys :
    (mapKeys (applyCalls NewProxyManager
        [MapCall.store 0 (Value.node 0), MapCall.store 0 (Value.node 0)]).entries).length = 1
    ∧ (applyCalls NewProxyManager
        [MapCall.store 0 (Value.node 0), MapCall.store 0 (Value.node 0)]).Len = 2
    ∧ (mapKeys (applyCalls NewProxyManager [MapCall.delete 0]).entries).length = 0
    ∧ (applyCalls NewProxyManager [MapCall.delete 0]).Len = -1 := by
  decide

/-! ### Helper lemmas: machine integers -/

theorem wrapInt64_of_range (x : Int) (h1 : -2 ^ 63 ≤ x) (h2 : x < 2 ^ 63) : wrapInt64 x = x := by
  unfold wrapInt64
  rw [Int.emod_eq_of_lt (by omega) (by omega)]
  omega

theorem addInt64_succ (v : Int) (h1 : -2 ^ 63 ≤ v) (h2 : v < 2 ^ 63 - 1) : addInt64 v 1 = v + 1 := by
  unfold addInt64
  exact wrapInt64_of_range _ (by omega) (by omega)

/-! ### Helper lemmas: the probe loop -/

theorem probeOutcome_inv (k : Nat) (n : proxyNode) (r : ProbeInput) (hk : k + 1 < 2 ^ 63)
    (h : ProbeInv k n) :
    ProbeInv (k + 1) (probeOutcome n r) ∧ n.okcnt ≤ (probeOutcome n r).okcnt
      ∧ (probeOutcome n r).okcnt ≤ n.okcnt + 1 := by
  obtain ⟨ht, ho1, ho2, hf1, hf2⟩ := h
  have e1 : addInt64 n.total 1 = n.total + 1 := addInt64_succ _ (by omega) (by omega)
  have e2 : addInt64 n.okcnt 1 = n.okcnt + 1 := addInt64_succ _ (by omega) (by omega)
  have e3 : addInt64 n.failcnt 1 = n.failcnt + 1 := addInt64_succ _ (by omega) (by omega)
  unfold ProbeInv probeOutcome
  cases r.dialOk <;> cases r.checkOk <;> simp [e1, e2, e3] <;> omega

theorem probeRound_inv (k : Nat) (n : proxyNode) (r : ProbeInput) (hk : k + 1 < 2 ^ 63)
    (h : ProbeInv k n) : ProbeInv (k + 1) (probeRound n r) :=
  (probeOutcome_inv k n r hk h).1

theorem probeRounds_inv (rs : List ProbeInput) (k : Nat) (n : proxyNode)
    (hk : k + rs.length < 2 ^ 63) (h : ProbeInv k n) :
    ProbeInv (k + rs.length) (probeRounds n rs) := by
  induction rs generalizing k n with
  | nil => simpa [probeRounds] using h
  | cons r rs ih =>
    simp only [List.length_cons] at hk
    have := ih (k + 1) (probeRound n r) (by omega) (probeRound_inv k n r (by omega) h)
    simpa [probeRounds, Nat.add_assoc, Nat.add_comm 1] using this

theorem probeInv_new : ProbeInv 0 NewProxyNode := by
  simp [ProbeInv, NewProxyNode]

theorem probeRounds_new_inv (rs : List ProbeInput) (hk : rs.length < 2 ^ 63) :
    ProbeInv rs.length (probeRounds NewProxyNode rs) := by
  simpa using probeRounds_inv rs 0 NewProxyNode (by simpa using hk) probeInv_new

theorem probeRounds_append (n : proxyNode) (rs : List ProbeInput) (r : ProbeInput) :
    probeRounds n (rs ++ [r]) = probeRound (probeRounds n rs) r := by
  simp [probeRounds]

/-- C9: for a node made by `NewProxyNode` and any sequence of probe rounds (fewer
than `2 ^ 63` of them, so that no `int64` counter wraps), the round just
completed increased `total` by exactly 1 and `okcnt` by at most 1, and
`okcnt ≤ total` holds after it. -/
theorem C9_okcnt_le_total (rs : List ProbeInput) (r : ProbeInput)
    (hlen : rs.length + 1 < 2 ^ 63) :
    (probeRounds NewProxyNode (rs ++ [r])).total = (probeRounds NewProxyNode rs).total + 1
    ∧ (probeRounds NewProxyNode rs).okcnt ≤ (probeRounds NewProxyNode (rs ++ [r])).okcnt
    ∧ (probeRounds NewProxyNode (rs ++ [r])).okcnt ≤ (probeRounds NewProxyNode rs).okcnt + 1
    ∧ (probeRounds NewProxyNode (rs ++ [r])).okcnt ≤ (probeRounds NewProxyNode (rs ++ [r])).total
    ∧ (probeRounds NewProxyNode rs).okcnt ≤ (probeRounds NewProxyNode rs).total := by
  have h0 := probeRounds_new_inv rs (by omega)
  have h1 := probeOutcome_inv rs.length _ r hlen h0
  rw [probeRounds_append]
  obtain ⟨⟨a1, a2, a3, a4, a5⟩, b, c⟩ := h1
  obtain ⟨d1, d2, d3, d4, d5⟩ := h0
  refine ⟨?_, b, c, ?_, ?_⟩
  · show (probeOutcome _ r).total = _
    rw [a1, d1]; push_cast; ring
  · show (probeOutcome _ r).okcnt ≤ (probeOutcome _ r).total
    rw [a1]; exact a3
  · rw [d1]; exact d3

/-- Witness of C9: a failed dial followed by a good probe. -/
theorem C9_okcnt_le_total_witness :
    [badRound].length + 1 < 2 ^ 63
    ∧ (probeRounds NewProxyNode ([badRound] ++ [goodRound])).total
        = (probeRounds NewProxyNode [badRound]).total + 1
    ∧ (probeRounds NewProxyNode [badRound]).okcnt
        ≤ (probeRounds NewProxyNode ([badRound] ++ [goodRound])).okcnt
    ∧ (probeRounds NewProxyNode ([badRound] ++ [goodRound])).okcnt
        ≤ (probeRounds NewProxyNode [badRound]).okcnt + 1
    ∧ (probeRounds NewProxyNode ([badRound] ++ [goodRound])).okcnt
        ≤ (probeRounds NewProxyNode ([badRound] ++ [goodRound])).total
    ∧ (probeRounds NewProxyNode [badRound]).okcnt ≤ (probeRounds NewProxyNode [badRound]).total :=
  ⟨by decide, C9_okcnt_le_total [badRound] goodRound (by decide)⟩

/-- C10: one probe round on a node whose `okcnt` and `failcnt` are `int64` values
below the maximum. If the dial succeeds and `CheckConn` returns true, then
afterwards `failcnt = 0` and `okcnt` is one more; otherwise (dial error, or
`CheckConn` false) `failcnt` is one more and `okcnt` and `timeout` are unchanged. -/
theorem C10_probe_outcome (n : proxyNode) (r : ProbeInput)
    (ho1 : -2 ^ 63 ≤ n.okcnt) (ho2 : n.okcnt < 2 ^ 63 - 1)
    (hf1 : -2 ^ 63 ≤ n.failcnt) (hf2 : n.failcnt < 2 ^ 63 - 1) :
    (r.dialOk = true ∧ r.checkOk = true →
      (probeRound n r).failcnt = 0 ∧ (probeRound n r).okcnt = n.okcnt + 1)
    ∧ (¬ (r.dialOk = true ∧ r.checkOk = true) →
      (probeRound n r).failcnt = n.failcnt + 1 ∧ (probeRound n r).okcnt = n.okcnt
        ∧ (probeRound n r).timeout = n.timeout) := by
  have e2 : addInt64 n.okcnt 1 = n.okcnt + 1 := addInt64_succ _ ho1 ho2
  have e3 : addInt64 n.failcnt 1 = n.failcnt + 1 := addInt64_succ _ hf1 hf2
  unfold probeRound probeOutcome
  cases r.dialOk <;> cases r.checkOk <;> simp [e2, e3]

/-- Witness of C10: a good probe on a node with two failures behind it. -/
theorem C10_probe_outcome_witness :
    (-2 ^ 63 ≤ twiceFailed.okcnt ∧ twiceFailed.okcnt < 2 ^ 63 - 1
      ∧ -2 ^ 63 ≤ twiceFailed.failcnt ∧ twiceFailed.failcnt < 2 ^ 63 - 1)
    ∧ (goodRound.dialOk = true ∧ goodRound.checkOk = true →
        (probeRound twiceFailed goodRound).failcnt = 0
        ∧ (probeRound twiceFailed goodRound).okcnt = twiceFailed.okcnt + 1)
    ∧ (¬ (goodRound.dialOk = true ∧ goodRound.checkOk = true) →
        (probeRound twiceFailed goodRound).failcnt = twiceFailed.failcnt + 1
        ∧ (probeRound twiceFailed goodRound).okcnt = twiceFailed.okcnt
        ∧ (probeRound twiceFailed goodRound).timeout = twiceFailed.timeout) :=
  ⟨by decide, C10_probe_outcome twiceFailed goodRound (by decide) (by decide) (by decide)
    (by decide)⟩

/-- C7: when the ranking flag is already set, `GetSortList` returns the nil list
and leaves the registry (entries, length, flag, staging buffer) as it was. -/
theorem C7_busy_returns_nil (large : LargeSort) (h : Heap) (m : proxyManager)
    (hbusy : m.flags ≠ 0) :
    m.GetSortList large h = (m, some [])
    ∧ (m.GetSortList large h).1.entries = m.entries
    ∧ (m.GetSortList large h).1.Len = m.Len
    ∧ (m.GetSortList large h).1.flags = m.flags
    ∧ (m.GetSortList large h).1.lists = m.lists := by
  have e : m.GetSortList large h = (m, some []) := by
    simp [proxyManager.GetSortList, casUint32, hbusy]
  simp [e]

/-- Witness of C7: a registry with one entry whose flag is set. -/
theorem C7_busy_returns_nil_witness :
    busyRegistry.flags ≠ 0
    ∧ busyRegistry.GetSortList (fun _ _ _ => none) (fun _ => NewProxyNode)
        = (busyRegistry, some []) :=
  ⟨by decide, (C7_busy_returns_nil (fun _ _ _ => none) (fun _ => NewProxyNode)
    busyRegistry (by decide)).1⟩

/-- C2 (fails on the code): with the nodes B, X, A of `rankHeap` visited in this
order, `GetSortList` returns B, X, A: A is `before` B, yet A is placed after B.
X is comparable with neither, and the insertion sort that `sort.Sort` runs on
three elements compares neighbours only. -/
theorem C2_comparable_pair_out_of_order :
    ∀ large : LargeSort,
      (rankRegistry.GetSortList large rankHeap).2 = some [0, 1, 2]
      ∧ (rankHeap 2).before (rankHeap 0) = true
      ∧ (rankHeap 1).before (rankHeap 0) = false ∧ (rankHeap 2).before (rankHeap 1) = false :=
  fun _ => ⟨rfl, by decide, by decide, by decide⟩

theorem slowLoop_three (k : Nat) :
    proxyNode.slowLoop k (Float64.finite false (3 * 2 ^ 51) (-51))
      = Float64.finite false (3 * 2 ^ 51) (-51) := by
  induction k with
  | zero => rfl
  | succ k ih =>
    have step : Float64.mul (Float64.finite false (3 * 2 ^ 51) (-51)) (Float64.ofInt (5 / 3))
        = Float64.finite false (3 * 2 ^ 51) (-51) := by
      set_option maxRecDepth 10000 in decide
    rw [proxyNode.slowLoop, step, ih]

/-- C6 (fails on the code): `slow` does not escalate. The factor `5 / 3` is an
integer constant expression, equal to 1, so `slow(r)` is 3 for every `r`; in
particular `slow(1)` is 3, not 5, and the sleep after 3 failures is the sleep
after none. -/
theorem C6_slow_is_constant :
    (∀ ratio : Int, proxyNode.slow ratio = 3)
    ∧ probeSleep { NewProxyNode with failcnt := 3 } = probeSleep { NewProxyNode with failcnt := 0 } := by
  have h : ∀ ratio : Int, proxyNode.slow ratio = 3 := by
    intro ratio
    have e : Float64.ofInt 3 = Float64.finite false (3 * 2 ^ 51) (-51) := by decide
    unfold proxyNode.slow
    rw [e, slowLoop_three]
    decide
  exact ⟨h, by simp [probeSleep, h]⟩

/-! ### Helper lemmas: pruning -/

theorem mem_entryPtrs (es : List (Key × Value)) (p : Ptr) :
    p ∈ entryPtrs es ↔ ∃ k, (k, Value.node p) ∈ es := by
  induction es with
  | nil => simp [entryPtrs]
  | cons e es ih =>
    obtain ⟨k, v⟩ := e
    cases v with
    | node q =>
      simp only [entryPtrs, List.mem_cons, ih, Prod.mk.injEq, Value.node.injEq]
      constructor
      · rintro (rfl | ⟨k', hk⟩)
        · exact ⟨k, Or.inl ⟨rfl, rfl⟩⟩
        · exact ⟨k', Or.inr hk⟩
      · rintro ⟨k', (⟨_, rfl⟩ | hk)⟩
        · exact Or.inl rfl
        · exact Or.inr ⟨k', hk⟩
    | other tag =>
      simp only [entryPtrs, List.mem_cons, ih, Prod.mk.injEq]
      constructor
      · rintro ⟨k', hk⟩
        exact ⟨k', Or.inr hk⟩
      · rintro ⟨k', (⟨_, hv⟩ | hk)⟩
        · cases hv
        · exact ⟨k', hk⟩

theorem mapDelete_middle (pre es : List (Key × Value)) (k : Key) (v : Value)
    (hnd : (mapKeys (pre ++ (k, v) :: es)).Nodup) :
    mapDelete (pre ++ (k, v) :: es) k = pre ++ es := by
  unfold mapKeys at hnd
  rw [List.map_append, List.map_cons, List.nodup_append] at hnd
  obtain ⟨_, h2, h3⟩ := hnd
  have hpre : ∀ e ∈ pre, e.1 ≠ k := by
    intro e he heq
    exact h3 (List.mem_map_of_mem Prod.fst he) (by simp [heq])
  have hes : ∀ e ∈ es, e.1 ≠ k := by
    intro e he heq
    rw [List.nodup_cons] at h2
    have hmem : e.1 ∈ List.map Prod.fst es := List.mem_map_of_mem Prod.fst he
    rw [heq] at hmem
    exact h2.1 hmem
  unfold mapDelete
  rw [List.filter_append, List.filter_cons]
  simp only [ne_eq, not_true_eq_false, decide_False, Bool.false_eq_true, ↓reduceIte]
  rw [List.filter_eq_self.mpr (fun e he => by simpa using hpre e he),
    List.filter_eq_self.mpr (fun e he => by simpa using hes e he)]

theorem closeBadKeeps_set (h : Heap) (t : Int) (p : Ptr) :
    closeBadKeeps (h.set p (h p).Close) t = closeBadKeeps h t := by
  funext e
  obtain ⟨k, v⟩ := e
  cases v with
  | node q =>
    by_cases hq : q = p
    · subst hq; simp [closeBadKeeps, Heap.set, proxyNode.Close]
    · simp [closeBadKeeps, Heap.set, hq]
  | other tag => rfl

theorem close_close (n : proxyNode) : n.Close.Close = n.Close := by
  unfold proxyNode.Close casUint32
  by_cases h : n.exit = 0 <;> simp [h]

theorem closeBad_fold (t : Int) (es pre : List (Key × Value)) (h : Heap) (m : proxyManager)
    (hm : m.entries = pre ++ es) (hnd : (mapKeys (pre ++ es)).Nodup) :
    (mapRange es (closeBadVisit t) (h, m)).2.entries = pre ++ es.filter (closeBadKeeps h t)
    ∧ ∀ q, (mapRange es (closeBadVisit t) (h, m)).1 q
        = if t < (h q).failcnt ∧ q ∈ entryPtrs es then (h q).Close else h q := by
  induction es generalizing pre h m with
  | nil => simp [mapRange, hm, entryPtrs]
  | cons e es ih =>
    obtain ⟨k, v⟩ := e
    have hstep : mapRange ((k, v) :: es) (closeBadVisit t) (h, m)
        = mapRange es (closeBadVisit t) (closeBadVisit t k v (h, m)) := by
      simp [mapRange]
    rw [hstep]
    cases v with
    | other tag =>
      have := ih (pre ++ [(k, Value.other tag)]) h m (by simp [hm]) (by simpa using hnd)
      simpa [closeBadVisit, closeBadKeeps, entryPtrs] using this
    | node p =>
      by_cases hbad : t < (h p).failcnt
      · have hdel : (m.Delete k).entries = pre ++ es := by
          simp only [proxyManager.Delete, hm]
          exact mapDelete_middle pre es k (Value.node p) hnd
        have hnd2 : (mapKeys (pre ++ es)).Nodup := by
          unfold mapKeys at hnd ⊢
          rw [List.map_append, List.map_cons] at hnd
          rw [List.map_append]
          exact hnd.sublist (List.Sublist.append_left (List.sublist_cons_self _ _) _)
        have := ih pre (h.set p (h p).Close) (m.Delete k) hdel hnd2
        simp only [closeBadVisit, hbad, ↓reduceIte]
        rw [closeBadKeeps_set] at this
        refine ⟨?_, ?_⟩
        · rw [this.1, List.filter_cons]
          have : closeBadKeeps h t (k, Value.node p) = false := by
            simp [closeBadKeeps, hbad]
          simp [this]
        · intro q
          rw [this.2 q]
          by_cases hq : q = p
          · subst hq
            have hs : h.set q (h q).Close q = (h q).Close := by simp [Heap.set]
            have hf : (h q).Close.failcnt = (h q).failcnt := rfl
            rw [hs, hf]
            by_cases hmem : q ∈ entryPtrs es <;> simp [hbad, entryPtrs, close_close, hmem]
          · simp [Heap.set, hq, entryPtrs]
      · have := ih (pre ++ [(k, Value.node p)]) h m (by simp [hm]) (by simpa using hnd)
        simp only [closeBadVisit, hbad, ↓reduceIte]
        refine ⟨?_, ?_⟩
        · rw [this.1, List.filter_cons]
          have : closeBadKeeps h t (k, Value.node p) = true := by
            simp [closeBadKeeps]; omega
          simp [this]
        · intro q
          rw [this.2 q]
          by_cases hq : q = p
          · subst hq; simp [entryPtrs, hbad]
          · simp [entryPtrs, hq]

/-- C3: `CloseBad(t)` on a registry (pairwise distinct keys). Afterwards the
registry holds exactly the entries whose node had `failcnt ≤ max(t, 3)` before
the call (and the values that are no nodes); every removed node has its exit
flag set; every retained entry is an entry of before whose node record is
unchanged. `CloseBad(t)` for `t < 3` is `CloseBad(3)`; with X at 10 failures and
Y at 2, `CloseBad(5)` removes and closes X and retains Y untouched. -/
theorem C3_closeBad (h : Heap) (m : proxyManager) (t : Int)
    (hnd : (mapKeys m.entries).Nodup) :
    (m.CloseBad h t).2.entries = m.entries.filter (closeBadKeeps h (max t 3))
    ∧ (∀ k p, (k, Value.node p) ∈ m.entries → max t 3 < (h p).failcnt →
        (k, Value.node p) ∉ (m.CloseBad h t).2.entries ∧ ((m.CloseBad h t).1 p).exit ≠ 0)
    ∧ (∀ k p, (k, Value.node p) ∈ (m.CloseBad h t).2.entries →
        (k, Value.node p) ∈ m.entries ∧ (h p).failcnt ≤ max t 3 ∧ (m.CloseBad h t).1 p = h p)
    ∧ (t < 3 → m.CloseBad h t = m.CloseBad h 3)
    ∧ ((pruneRegistry.CloseBad pruneHeap 5).2.entries = [(21, Value.node 1)]
        ∧ ((pruneRegistry.CloseBad pruneHeap 5).1 0).exit = 1
        ∧ (pruneRegistry.CloseBad pruneHeap 5).1 1 = pruneHeap 1) := by
  have hclamp : (if 3 > t then 3 else t) = max t 3 := by
    by_cases h3 : 3 > t
    · simp [h3]; omega
    · simp [h3]; omega
  have key := closeBad_fold (max t 3) m.entries [] h m (by simp) (by simpa using hnd)
  have hdef : m.CloseBad h t = mapRange m.entries (closeBadVisit (max t 3)) (h, m) := by
    unfold proxyManager.CloseBad
    rw [hclamp]
  rw [← hdef] at key
  obtain ⟨hent, hheap⟩ := key
  simp only [List.nil_append] at hent
  refine ⟨hent, ?_, ?_, ?_, ?_⟩
  · intro k p hmem hbad
    constructor
    · rw [hent, List.mem_filter]
      rintro ⟨_, hk⟩
      simp only [closeBadKeeps, decide_eq_true_eq] at hk
      omega
    · rw [hheap p]
      have hp : p ∈ entryPtrs m.entries := (mem_entryPtrs _ _).2 ⟨k, hmem⟩
      simp only [hbad, hp, and_self, ↓reduceIte, proxyNode.Close, casUint32]
      by_cases he : (h p).exit = 0 <;> simp [he]
  · intro k p hmem
    rw [hent, List.mem_filter] at hmem
    obtain ⟨h1, h2⟩ := hmem
    simp only [closeBadKeeps, decide_eq_true_eq] at h2
    refine ⟨h1, h2, ?_⟩
    rw [hheap p]
    have : ¬ (max t 3 < (h p).failcnt) := by omega
    simp [this]
  · intro ht
    unfold proxyManager.CloseBad
    have : 3 > t := ht
    simp [this]
  · refine ⟨by decide, by decide, by decide⟩

/-- Witness of C3: the registry of X and Y, pruned at threshold 5. -/
theorem C3_closeBad_witness :
    (mapKeys pruneRegistry.entries).Nodup
    ∧ (pruneRegistry.CloseBad pruneHeap 5).2.entries
        = pruneRegistry.entries.filter (closeBadKeeps pruneHeap (max 5 3)) :=
  ⟨by decide, (C3_closeBad pruneHeap pruneRegistry 5 (by decide)).1⟩

/-! ### Helper lemmas: traffic connections -/

theorem addInt64_pred (v : Int) (h1 : -2 ^ 63 < v) (h2 : v < 2 ^ 63) :
    addInt64 v (-1) = v - 1 := by
  unfold addInt64
  rw [wrapInt64_of_range _ (by omega) (by omega)]
  ring

theorem runConnOps_count (p : Ptr) (ops : List ConnOp) (s : ConnState) (c : Int)
    (hconns : ∀ x ∈ s.conns, x.node = some p) (hvalid : validOps s.conns.length ops = true)
    (hc : (s.heap p).count = c) (hb : |c| + ops.length < 2 ^ 63) :
    ((runConnOps p s ops).heap p).count = c + dialCount ops - closeCount ops := by
  induction ops generalizing s c with
  | nil => simp [runConnOps, dialCount, closeCount, hc]
  | cons op ops ih =>
    have hstep : runConnOps p s (op :: ops) = runConnOps p (ConnOp.apply p s op) ops := by
      simp [runConnOps]
    rw [hstep]
    simp only [List.length_cons, Nat.cast_add, Nat.cast_one] at hb
    have habs := abs_le.mp (le_refl |c|)
    cases op with
    | dial conn =>
      simp only [validOps] at hvalid
      have e : addInt64 c 1 = c + 1 := addInt64_succ c (by omega) (by omega)
      have := ih (ConnOp.apply p s (ConnOp.dial conn)) (c + 1)
        (by
          intro x hx
          simp only [ConnOp.apply, proxyNode.Dial, List.mem_append, List.mem_singleton] at hx
          rcases hx with hx | hx
          · exact hconns x hx
          · rw [hx])
        (by simpa [ConnOp.apply, proxyNode.Dial] using hvalid)
        (by simp [ConnOp.apply, proxyNode.Dial, Heap.set, hc, e])
        (by have := abs_add c 1; simp only [abs_one] at this; omega)
      rw [this]
      simp only [dialCount, closeCount, Nat.cast_add, Nat.cast_one]
      ring
    | close i =>
      simp only [validOps, Bool.and_eq_true, decide_eq_true_eq] at hvalid
      obtain ⟨hi, hvalid⟩ := hvalid
      obtain ⟨x, hx, hxp⟩ : ∃ x, s.conns[i]? = some x ∧ x.node = some p :=
        ⟨s.conns[i], List.getElem?_eq_getElem hi, hconns _ (List.getElem_mem hi)⟩
      have e : addInt64 c (-1) = c - 1 := addInt64_pred c (by omega) (by omega)
      have := ih (ConnOp.apply p s (ConnOp.close i)) (c - 1)
        (by simpa [ConnOp.apply, hx] using hconns)
        (by simpa [ConnOp.apply, hx] using hvalid)
        (by simp [ConnOp.apply, hx, proxyConn.Close, hxp, Heap.set, hc, e])
        (by have := abs_sub c 1; simp only [abs_one] at this; omega)
      rw [this]
      simp only [dialCount, closeCount, Nat.cast_add, Nat.cast_one]
      ring

theorem closeCalls_dial (c : Nat) (ops : List ConnOp) (i : Nat) :
    closeCalls (ConnOp.dial c :: ops) i = closeCalls ops i := by
  simp [closeCalls]

theorem closeCalls_close (j : Nat) (ops : List ConnOp) (i : Nat) :
    closeCalls (ConnOp.close j :: ops) i = closeCalls ops i + if i = j then 1 else 0 := by
  unfold closeCalls
  rw [List.count_cons]
  by_cases h : i = j
  · subst h; simp
  · have : ¬ (j = i) := fun e => h e.symm
    simp [h, this]

theorem validOps_close_lt (ops : List ConnOp) (n i : Nat) (hv : validOps n ops = true)
    (hi : 0 < closeCalls ops i) : i < n + dialCount ops := by
  induction ops generalizing n with
  | nil => simp [closeCalls] at hi
  | cons op ops ih =>
    cases op with
    | dial c =>
      simp only [validOps] at hv
      rw [closeCalls_dial] at hi
      have := ih (n + 1) hv hi
      simp only [dialCount]; omega
    | close j =>
      simp only [validOps, Bool.and_eq_true, decide_eq_true_eq] at hv
      rw [closeCalls_close] at hi
      by_cases hij : i = j
      · subst hij; simp only [dialCount]; omega
      · simp only [hij, ↓reduceIte, add_zero] at hi
        have := ih n hv.2 hi
        simpa [dialCount] using this

theorem closeCount_add_open (ops : List ConnOp) (N : Nat)
    (hidx : ∀ i, 0 < closeCalls ops i → i < N) (hone : ∀ i, closeCalls ops i ≤ 1) :
    closeCount ops + ((Finset.range N).filter (fun i => closeCalls ops i = 0)).card = N := by
  induction ops with
  | nil => simp [closeCount, closeCalls]
  | cons op ops ih =>
    cases op with
    | dial c =>
      simp only [closeCalls_dial] at hidx hone ⊢
      simpa [closeCount] using ih hidx hone
    | close j =>
      have hj0 : closeCalls ops j = 0 := by
        have := hone j
        rw [closeCalls_close] at this
        simp at this
        exact this
      have hjN : j < N := hidx j (by rw [closeCalls_close]; simp)
      have hidx2 : ∀ i, 0 < closeCalls ops i → i < N := by
        intro i hi
        exact hidx i (by rw [closeCalls_close]; omega)
      have hone2 : ∀ i, closeCalls ops i ≤ 1 := by
        intro i
        have := hone i
        rw [closeCalls_close] at this
        omega
      have hset : (Finset.range N).filter (fun i => closeCalls (ConnOp.close j :: ops) i = 0)
          = ((Finset.range N).filter (fun i => closeCalls ops i = 0)).erase j := by
        ext i
        simp only [Finset.mem_filter, Finset.mem_range, Finset.mem_erase, closeCalls_close]
        by_cases hij : i = j
        · subst hij; simp
        · simp [hij]
      have hmem : j ∈ (Finset.range N).filter (fun i => closeCalls ops i = 0) := by
        simp [hjN, hj0]
      rw [hset, Finset.card_erase_of_mem hmem]
      have hpos := Finset.card_pos.mpr ⟨j, hmem⟩
      have := ih hidx2 hone2
      simp only [closeCount]
      omega

/-- C4 (as amended): on a node whose `count` is 0, after any sequence of
successful `Dial` calls and `Close` calls on connections they returned (fewer
than `2 ^ 63` events, so that `count` cannot wrap), `count` is the number of
`Dial` calls minus the number of `Close` calls: every `Close` call decrements.
If no connection is closed twice, `count` is the number of dialled connections
not yet closed, and is not negative. -/
theorem C4_count_per_close_call (p : Ptr) (h : Heap) (ops : List ConnOp)
    (hfresh : (h p).count = 0) (hvalid : validOps 0 ops = true)
    (hlen : ops.length < 2 ^ 63) :
    ((runConnOps p { heap := h, conns := [] } ops).heap p).count
        = (dialCount ops : Int) - (closeCount ops : Int)
    ∧ ((∀ i, closeCalls ops i ≤ 1) →
        ((runConnOps p { heap := h, conns := [] } ops).heap p).count = (openCount ops : Int)
        ∧ 0 ≤ ((runConnOps p { heap := h, conns := [] } ops).heap p).count) := by
  have hcount := runConnOps_count p ops { heap := h, conns := [] } 0 (by simp)
    (by simpa using hvalid) hfresh (by simpa using hlen)
  rw [zero_add] at hcount
  refine ⟨hcount, ?_⟩
  intro hone
  have hid := closeCount_add_open ops (dialCount ops)
    (fun i hi => by simpa using validOps_close_lt ops 0 i hvalid hi) hone
  have : ((runConnOps p { heap := h, conns := [] } ops).heap p).count = (openCount ops : Int) := by
    rw [hcount]
    unfold openCount
    omega
  exact ⟨this, by rw [this]; exact Int.natCast_nonneg _⟩

/-- Witness of C4: two dials, the first connection closed once. -/
theorem C4_count_per_close_call_witness :
    validOps 0 [ConnOp.dial 7, ConnOp.dial 8, ConnOp.close 0] = true
    ∧ ((runConnOps 0 freshConnState [ConnOp.dial 7, ConnOp.dial 8, ConnOp.close 0]).heap 0).count
        = (dialCount [ConnOp.dial 7, ConnOp.dial 8, ConnOp.close 0] : Int)
          - (closeCount [ConnOp.dial 7, ConnOp.dial 8, ConnOp.close 0] : Int) :=
  ⟨by decide, (C4_count_per_close_call 0 (fun _ => NewProxyNode)
    [ConnOp.dial 7, ConnOp.dial 8, ConnOp.close 0] rfl (by decide) (by decide)).1⟩

/-- C4 (fails on the code as stated): `Dial`, then `Close` twice on the
connection it returned. After the first `Close` the count is 0; after the second
no connection is open, but `count` is -1: the second `Close` decremented again. -/
theorem C4_double_close_decrements_twice :
    validOps 0 [ConnOp.dial 7, ConnOp.close 0, ConnOp.close 0] = true
    ∧ ((runConnOps 0 freshConnState [ConnOp.dial 7, ConnOp.close 0]).heap 0).count = 0
    ∧ ((runConnOps 0 freshConnState [ConnOp.dial 7, ConnOp.close 0, ConnOp.close 0]).heap 0).count
        = -1
    ∧ openCount [ConnOp.dial 7, ConnOp.close 0, ConnOp.close 0] = 0 := by
  decide

/-! ### Helper lemmas: rounding to 53 bits -/

theorem bitLog_spec (f n : Nat) (h0 : 0 < n) (hf : n ≤ f) :
    2 ^ bitLog f n ≤ n ∧ n < 2 ^ (bitLog f n + 1) := by
  induction f generalizing n with
  | zero => omega
  | succ f ih =>
    unfold bitLog
    by_cases h2 : n < 2
    · simp only [h2, ↓reduceIte]
      omega
    · simp only [h2, ↓reduceIte]
      have := ih (n / 2) (by omega) (by omega)
      rw [pow_succ, pow_succ (n := bitLog f (n / 2) + 1)]
      omega

theorem log2_spec (n : Nat) (h0 : 0 < n) : 2 ^ log2 n ≤ n ∧ n < 2 ^ (log2 n + 1) :=
  bitLog_spec n n h0 (le_refl n)

theorem binade_spec (num den : Nat) (hn : 0 < num) (hd : 0 < den) :
    (2 : ℚ) ^ binade num den ≤ (num : ℚ) / den
    ∧ (num : ℚ) / den < (2 : ℚ) ^ (binade num den + 1) := by
  obtain ⟨a1, a2⟩ := log2_spec num hn
  obtain ⟨b1, b2⟩ := log2_spec den hd
  have hdq : (0 : ℚ) < den := by exact_mod_cast hd
  have a1q : (2 : ℚ) ^ log2 num ≤ num := by exact_mod_cast a1
  have a2q : (num : ℚ) < 2 ^ (log2 num + 1) := by exact_mod_cast a2
  have b1q : (2 : ℚ) ^ log2 den ≤ den := by exact_mod_cast b1
  have b2q : (den : ℚ) < 2 ^ (log2 den + 1) := by exact_mod_cast b2
  have pa : (0 : ℚ) < 2 ^ log2 num := by positivity
  have pb : (0 : ℚ) < 2 ^ log2 den := by positivity
  have two : (2 : ℚ) ≠ 0 := by norm_num
  unfold binade
  by_cases hc : den * 2 ^ log2 num ≤ num * 2 ^ log2 den
  · simp only [hc, ↓reduceIte]
    have hcq : (den : ℚ) * 2 ^ log2 num ≤ num * 2 ^ log2 den := by exact_mod_cast hc
    have e1 : (2 : ℚ) ^ ((log2 num : Int) - (log2 den : Int)) = 2 ^ log2 num / 2 ^ log2 den := by
      rw [zpow_sub₀ two, zpow_natCast, zpow_natCast]
    have e2 : (2 : ℚ) ^ ((log2 num : Int) - (log2 den : Int) + 1)
        = 2 ^ (log2 num + 1) / 2 ^ log2 den := by
      rw [zpow_add_one₀ two, e1, pow_succ]; ring
    rw [e1, e2]
    constructor
    · rw [div_le_div_iff₀ pb hdq]; linarith
    · rw [div_lt_div_iff₀ hdq pb]
      calc (num : ℚ) * 2 ^ log2 den < 2 ^ (log2 num + 1) * 2 ^ log2 den := by
            apply mul_lt_mul_of_pos_right a2q pb
        _ ≤ 2 ^ (log2 num + 1) * den := by
            apply mul_le_mul_of_nonneg_left b1q (by positivity)
  · simp only [hc, ↓reduceIte]
    have hcq : (num : ℚ) * 2 ^ log2 den < den * 2 ^ log2 num := by
      exact_mod_cast Nat.lt_of_not_le hc
    have e1 : (2 : ℚ) ^ ((log2 num : Int) - (log2 den : Int) - 1)
        = 2 ^ log2 num / 2 ^ (log2 den + 1) := by
      rw [zpow_sub_one₀ two, zpow_sub₀ two, zpow_natCast, zpow_natCast, pow_succ]
      field_simp
    have e2 : (2 : ℚ) ^ ((log2 num : Int) - (log2 den : Int) - 1 + 1)
        = 2 ^ log2 num / 2 ^ log2 den := by
      rw [sub_add_cancel, zpow_sub₀ two, zpow_natCast, zpow_natCast]
    rw [e1, e2]
    constructor
    · rw [div_le_div_iff₀ (by positivity) hdq]
      calc (2 : ℚ) ^ log2 num * den ≤ 2 ^ log2 num * 2 ^ (log2 den + 1) := by
            apply mul_le_mul_of_nonneg_left (le_of_lt b2q) (by positivity)
        _ ≤ num * 2 ^ (log2 den + 1) := by
            apply mul_le_mul_of_nonneg_right a1q (by positivity)
    · rw [div_lt_div_iff₀ hdq pb]; linarith

theorem scale_spec (num den : Nat) (s : Int) (hd : 0 < den) :
    0 < (scale num den s).2
    ∧ ((scale num den s).1 : ℚ) / (scale num den s).2 = (num : ℚ) / den * (2 : ℚ) ^ s := by
  have hdq : (den : ℚ) ≠ 0 := by exact_mod_cast (Nat.pos_iff_ne_zero.mp hd)
  unfold scale
  by_cases hs : 0 ≤ s
  · simp only [hs, ↓reduceIte]
    refine ⟨hd, ?_⟩
    have : (2 : ℚ) ^ s = 2 ^ s.toNat := by
      rw [← zpow_natCast, Int.toNat_of_nonneg hs]
    rw [this]; push_cast; field_simp
  · simp only [hs, ↓reduceIte]
    refine ⟨by positivity, ?_⟩
    have : (2 : ℚ) ^ s = (2 ^ (-s).toNat)⁻¹ := by
      rw [← zpow_natCast, Int.toNat_of_nonneg (by omega), zpow_neg, inv_inv]
    rw [this]; push_cast; field_simp

theorem scale_num_pos (num den : Nat) (s : Int) (hn : 0 < num) : 0 < (scale num den s).1 := by
  unfold scale
  by_cases hs : 0 ≤ s
  · simp only [hs, ↓reduceIte]; positivity
  · simp only [hs, ↓reduceIte]; exact hn

theorem roundHalfEven_spec (num den : Nat) (hd : 0 < den) :
    |((roundHalfEven num den : Nat) : ℚ) - (num : ℚ) / den| ≤ 1 / 2 := by
  have hdq : (0 : ℚ) < den := by exact_mod_cast hd
  have hdm : num = den * (num / den) + num % den := (Nat.div_add_mod num den).symm
  have hq : (num : ℚ) / den = ((num / den : Nat) : ℚ) + ((num % den : Nat) : ℚ) / den := by
    have : (num : ℚ) = den * ((num / den : Nat) : ℚ) + ((num % den : Nat) : ℚ) := by
      exact_mod_cast hdm
    field_simp
    linarith
  have hr : num % den < den := Nat.mod_lt _ hd
  have hrq : ((num % den : Nat) : ℚ) < den := by exact_mod_cast hr
  have hr0 : (0 : ℚ) ≤ ((num % den : Nat) : ℚ) := by positivity
  have up : ∀ x : ℚ, 2 * x ≤ den → x / den ≤ 1 / 2 := by
    intro x hx; rw [div_le_div_iff₀ hdq (by norm_num)]; linarith
  have dn : ∀ x : ℚ, den ≤ 2 * x → 1 / 2 ≤ x / den := by
    intro x hx; rw [div_le_div_iff₀ (by norm_num) hdq]; linarith
  rw [hq, abs_le]
  unfold roundHalfEven
  by_cases c1 : 2 * (num % den) < den
  · simp only [c1, ↓reduceIte]
    have : (2 : ℚ) * ((num % den : Nat) : ℚ) ≤ den := by exact_mod_cast le_of_lt c1
    have h1 := up _ this
    have h2 : (0 : ℚ) ≤ ((num % den : Nat) : ℚ) / den := by positivity
    constructor <;> linarith
  · by_cases c2 : den < 2 * (num % den)
    · simp only [c1, c2, ↓reduceIte]
      have : (den : ℚ) ≤ 2 * ((num % den : Nat) : ℚ) := by exact_mod_cast le_of_lt c2
      have h1 := dn _ this
      have h2 : ((num % den : Nat) : ℚ) / den ≤ 1 := by
        rw [div_le_one hdq]; exact le_of_lt hrq
      push_cast
      constructor <;> linarith
    · have heq : 2 * (num % den) = den := by omega
      have e1 : (2 : ℚ) * ((num % den : Nat) : ℚ) = den := by exact_mod_cast heq
      have h1 := up _ (le_of_eq e1)
      have h2 := dn _ (le_of_eq e1.symm)
      simp only [c1, c2, ↓reduceIte]
      by_cases c3 : num / den % 2 = 0
      · simp only [c3, ↓reduceIte]
        constructor <;> linarith
      · simp only [c3, ↓reduceIte]
        push_cast
        constructor <;> linarith

theorem round53_spec (num den : Nat) (hn : 0 < num) (hd : 0 < den) :
    0 < (round53 num den).1
    ∧ |dyadic (round53 num den).1 (round53 num den).2 - (num : ℚ) / den|
        ≤ (num : ℚ) / den * unitRoundoff := by
  obtain ⟨lo, _⟩ := binade_spec num den hn hd
  obtain ⟨sd, sv⟩ := scale_spec num den (52 - binade num den) hd
  have hr := roundHalfEven_spec (scale num den (52 - binade num den)).1
    (scale num den (52 - binade num den)).2 sd
  have two : (2 : ℚ) ≠ 0 := by norm_num
  have hP : (0 : ℚ) < (2 : ℚ) ^ binade num den := by positivity
  have e1 : (2 : ℚ) ^ (52 - binade num den) = 2 ^ 52 / (2 : ℚ) ^ binade num den := by
    rw [zpow_sub₀ two]; norm_num
  have e2 : (2 : ℚ) ^ (binade num den - 52) = (2 : ℚ) ^ binade num den / 2 ^ 52 := by
    rw [zpow_sub₀ two]; norm_num
  have hne : num ≠ 0 := by omega
  simp only [round53, hne, ↓reduceIte, dyadic]
  rw [sv, e1] at hr
  rw [e2]
  generalize (2 : ℚ) ^ binade num den = P at *
  generalize (num : ℚ) / den = x at *
  generalize roundHalfEven (scale num den (52 - binade num den)).1
    (scale num den (52 - binade num den)).2 = m at *
  have hy : (2 : ℚ) ^ 52 ≤ x * (2 ^ 52 / P) := by
    rw [← mul_div_assoc, le_div_iff₀ hP]
    nlinarith
  obtain ⟨h1, h2⟩ := abs_le.mp hr
  constructor
  · have : (0 : ℚ) < (m : ℚ) := by linarith
    exact_mod_cast this
  · have hx : x = x * (2 ^ 52 / P) * (P / 2 ^ 52) := by field_simp
    have key : (m : ℚ) * (P / 2 ^ 52) - x = ((m : ℚ) - x * (2 ^ 52 / P)) * (P / 2 ^ 52) := by
      rw [sub_mul, ← hx]
    rw [key, abs_mul, abs_of_pos (by positivity : (0 : ℚ) < P / 2 ^ 52)]
    calc |(m : ℚ) - x * (2 ^ 52 / P)| * (P / 2 ^ 52) ≤ 1 / 2 * (P / 2 ^ 52) := by
          apply mul_le_mul_of_nonneg_right hr (by positivity)
      _ = P * unitRoundoff := by unfold unitRoundoff; norm_num; ring
      _ ≤ x * unitRoundoff := by
          apply mul_le_mul_of_nonneg_right lo (by unfold unitRoundoff; positivity)

/-! ### Helper lemmas: `float64` operations on positive values -/

theorem scale_zero_num (den : Nat) (s : Int) : (scale 0 den s).1 = 0 := by
  unfold scale
  by_cases hs : 0 ≤ s <;> simp [hs]

theorem dyadic_pos (m : Nat) (e : Int) (hm : 0 < m) : 0 < dyadic m e := by
  unfold dyadic
  have : (0 : ℚ) < m := by exact_mod_cast hm
  positivity

theorem ofInt_pos (a : Int) (ha : 0 < a) :
    ∃ m e, Float64.ofInt a = Float64.finite false m e ∧ 0 < m
      ∧ |dyadic m e - (a : ℚ)| ≤ (a : ℚ) * unitRoundoff := by
  have hn : 0 < a.natAbs := Int.natAbs_pos.mpr (by omega)
  obtain ⟨h1, h2⟩ := round53_spec a.natAbs 1 hn (by norm_num)
  refine ⟨(round53 a.natAbs 1).1, (round53 a.natAbs 1).2, ?_, h1, ?_⟩
  · unfold Float64.ofInt
    have : ¬ (a < 0) := by omega
    simp [this]
  · have hc : ((a.natAbs : Nat) : ℚ) = (a : ℚ) := by
      rw [← Int.cast_natCast, Int.natAbs_of_nonneg (by omega)]
    simpa [hc] using h2

theorem div_pos_spec (m n : Nat) (e f : Int) (hm : 0 < m) (hn : 0 < n) :
    ∃ m1 e1, Float64.div (Float64.finite false m e) (Float64.finite false n f)
        = Float64.finite false m1 e1 ∧ 0 < m1
      ∧ |dyadic m1 e1 - dyadic m e / dyadic n f| ≤ dyadic m e / dyadic n f * unitRoundoff := by
  obtain ⟨sd, sv⟩ := scale_spec m n (e - f) hn
  have sn := scale_num_pos m n (e - f) hm
  obtain ⟨h1, h2⟩ := round53_spec _ _ sn sd
  refine ⟨(round53 (scale m n (e - f)).1 (scale m n (e - f)).2).1,
    (round53 (scale m n (e - f)).1 (scale m n (e - f)).2).2, ?_, h1, ?_⟩
  · have : n ≠ 0 := by omega
    simp [Float64.div, this]
  · have two : (2 : ℚ) ≠ 0 := by norm_num
    have hv : dyadic m e / dyadic n f = (m : ℚ) / n * (2 : ℚ) ^ (e - f) := by
      unfold dyadic
      rw [zpow_sub₀ two]
      have : (n : ℚ) ≠ 0 := by exact_mod_cast (Nat.pos_iff_ne_zero.mp hn)
      field_simp
    rw [hv, ← sv]
    exact h2

theorem mul_pos_spec (m n : Nat) (e f : Int) (hm : 0 < m) (hn : 0 < n) :
    ∃ m1 e1, Float64.mul (Float64.finite false m e) (Float64.finite false n f)
        = Float64.finite false m1 e1 ∧ 0 < m1
      ∧ |dyadic m1 e1 - dyadic m e * dyadic n f| ≤ dyadic m e * dyadic n f * unitRoundoff := by
  obtain ⟨sd, sv⟩ := scale_spec (m * n) 1 (e + f) (by norm_num)
  have sn := scale_num_pos (m * n) 1 (e + f) (Nat.mul_pos hm hn)
  obtain ⟨h1, h2⟩ := round53_spec _ _ sn sd
  refine ⟨(round53 (scale (m * n) 1 (e + f)).1 (scale (m * n) 1 (e + f)).2).1,
    (round53 (scale (m * n) 1 (e + f)).1 (scale (m * n) 1 (e + f)).2).2, ?_, h1, ?_⟩
  · simp [Float64.mul]
  · have two : (2 : ℚ) ≠ 0 := by norm_num
    have hv : dyadic m e * dyadic n f = ((m * n : Nat) : ℚ) / (1 : Nat) * (2 : ℚ) ^ (e + f) := by
      unfold dyadic
      rw [zpow_add₀ two]
      push_cast
      ring
    rw [hv, ← sv]
    exact h2

theorem toInt64_pos_spec (m : Nat) (e : Int) (hlt : dyadic m e < 2 ^ 63) :
    Float64.toInt64 (Float64.finite false m e) = ⌊dyadic m e⌋ := by
  obtain ⟨sd, sv⟩ := scale_spec m 1 e (by norm_num)
  have hv : dyadic m e = ((scale m 1 e).1 : ℚ) / (scale m 1 e).2 := by
    rw [sv]; unfold dyadic; simp
  have hfl : ⌊dyadic m e⌋ = (((scale m 1 e).1 / (scale m 1 e).2 : Nat) : Int) := by
    rw [hv]
    have := Nat.floor_div_eq_div (α := ℚ) (scale m 1 e).1 (scale m 1 e).2
    rw [← this]
    exact (Int.natCast_floor_eq_floor (by positivity)).symm
  have hlt2 : ⌊dyadic m e⌋ < 2 ^ 63 := by
    rw [Int.floor_lt]; exact_mod_cast hlt
  rw [hfl] at hlt2 ⊢
  have h0 : (0 : Int) ≤ (((scale m 1 e).1 / (scale m 1 e).2 : Nat) : Int) := Int.natCast_nonneg _
  simp only [Float64.toInt64, Bool.false_eq_true, ↓reduceIte]
  rw [if_pos ⟨by omega, hlt2⟩]

theorem rel_bounds (x v : ℚ) (h : |v - x| ≤ x * unitRoundoff) :
    x * (1 - 1 / 2 ^ 53) ≤ v ∧ v ≤ x * (1 + 1 / 2 ^ 53) := by
  unfold unitRoundoff at h
  obtain ⟨h1, h2⟩ := abs_le.mp h
  constructor <;> linarith

theorem usability_chain (a b va vb vq vp : ℚ) (ha : 0 < a) (hb : 0 < b)
    (hA : |va - a| ≤ a * unitRoundoff) (hB : |vb - b| ≤ b * unitRoundoff)
    (hQ : |vq - va / vb| ≤ va / vb * unitRoundoff)
    (hP : |vp - vq * 100| ≤ vq * 100 * unitRoundoff) :
    |vp - 100 * a / b| ≤ 100 * a / b * (5 * unitRoundoff) := by
  obtain ⟨a1, a2⟩ := rel_bounds _ _ hA
  obtain ⟨b1, b2⟩ := rel_bounds _ _ hB
  obtain ⟨q1, q2⟩ := rel_bounds _ _ hQ
  obtain ⟨p1, p2⟩ := rel_bounds _ _ hP
  have hva : 0 < va := lt_of_lt_of_le (by positivity) a1
  have hvb : 0 < vb := lt_of_lt_of_le (by positivity) b1
  have hx : 0 < a / b := by positivity
  have r2 : va / vb ≤ a / b * ((1 + 1 / 2 ^ 53) / (1 - 1 / 2 ^ 53)) := by
    rw [div_mul_div_comm]
    exact div_le_div₀ (by positivity) a2 (by positivity) b1
  have r1 : a / b * ((1 - 1 / 2 ^ 53) / (1 + 1 / 2 ^ 53)) ≤ va / vb := by
    rw [div_mul_div_comm]
    exact div_le_div₀ (le_of_lt hva) a1 (by positivity) b2
  have e : 100 * a / b = 100 * (a / b) := by ring
  rw [e, abs_le]
  unfold unitRoundoff
  generalize a / b = x at *
  generalize va / vb = r at *
  norm_num at r1 r2 q1 q2 p1 p2 ⊢
  constructor <;> linarith

theorem ofInt_hundred : Float64.ofInt 100 = Float64.finite false (100 * 2 ^ 46) (-46) := by
  decide

theorem dyadic_hundred : dyadic (100 * 2 ^ 46) (-46) = 100 := by
  unfold dyadic
  rw [zpow_neg]
  norm_num

theorem usabilityOf_approx (a b : Int) (ha : 0 < a) (hab : a ≤ b) :
    ∃ v : ℚ, |v - 100 * (a : ℚ) / b| ≤ 100 * (a : ℚ) / b * (5 * unitRoundoff)
      ∧ proxyNode.usabilityOf a b = ⌊v⌋ := by
  have hb : 0 < b := by omega
  obtain ⟨ma, ea, hA, pa, bA⟩ := ofInt_pos a ha
  obtain ⟨mb, eb, hB, pb, bB⟩ := ofInt_pos b hb
  obtain ⟨mq, eq, hQ, pq, bQ⟩ := div_pos_spec ma mb ea eb pa pb
  obtain ⟨mp, ep, hP, _, bP⟩ := mul_pos_spec mq (100 * 2 ^ 46) eq (-46) pq (by norm_num)
  rw [dyadic_hundred] at bP
  have haq : (0 : ℚ) < a := by exact_mod_cast ha
  have hbq : (0 : ℚ) < b := by exact_mod_cast hb
  have key := usability_chain a b _ _ _ _ haq hbq bA bB bQ bP
  refine ⟨dyadic mp ep, key, ?_⟩
  have hle : (a : ℚ) / b ≤ 1 := by
    rw [div_le_one hbq]; exact_mod_cast hab
  have hlt : dyadic mp ep < 2 ^ 63 := by
    obtain ⟨_, k2⟩ := abs_le.mp key
    have e : 100 * (a : ℚ) / b = 100 * ((a : ℚ) / b) := by ring
    rw [e] at k2
    unfold unitRoundoff at k2
    have hx : (0 : ℚ) < (a : ℚ) / b := by positivity
    generalize (a : ℚ) / b = x at *
    norm_num at k2 ⊢
    nlinarith
  unfold proxyNode.usabilityOf
  rw [hA, hB, hQ, ofInt_hundred, hP]
  exact toInt64_pos_spec mp ep hlt

theorem round53_zero (den : Nat) : round53 0 den = (0, 0) := by
  simp [round53]

theorem div_zero_left (n : Nat) (f : Int) (hn : n ≠ 0) :
    Float64.div (Float64.finite false 0 0) (Float64.finite false n f)
      = Float64.finite false 0 0 := by
  simp only [Float64.div, hn, ↓reduceIte, scale_zero_num, round53_zero, Bool.xor_false]

theorem mul_zero_left (n : Nat) (f : Int) :
    Float64.mul (Float64.finite false 0 0) (Float64.finite false n f)
      = Float64.finite false 0 0 := by
  simp only [Float64.mul, Nat.zero_mul, scale_zero_num, round53_zero, Bool.xor_false]

theorem usabilityOf_zero (b : Int) (hb : 0 < b) : proxyNode.usabilityOf 0 b = 0 := by
  obtain ⟨mb, eb, hB, pb, _⟩ := ofInt_pos b hb
  have hne : mb ≠ 0 := by omega
  have h0 : Float64.ofInt 0 = Float64.finite false 0 0 := by decide
  unfold proxyNode.usabilityOf
  rw [h0, hB, ofInt_hundred, div_zero_left mb eb hne, mul_zero_left]
  decide

theorem usabilityOf_bounds (a b : Int) (ha : 0 ≤ a) (hab : a ≤ b) (hb : 0 < b) :
    0 ≤ proxyNode.usabilityOf a b ∧ proxyNode.usabilityOf a b ≤ 100
    ∧ a * 100 / b - 1 ≤ proxyNode.usabilityOf a b
    ∧ (b ≤ 2 ^ 44 → proxyNode.usabilityOf a b ≤ a * 100 / b) := by
  rcases eq_or_lt_of_le ha with h0 | hpos
  · subst h0
    rw [usabilityOf_zero b hb]
    simp
  · obtain ⟨v, hv, huse⟩ := usabilityOf_approx a b hpos hab
    have hbq : (0 : ℚ) < b := by exact_mod_cast hb
    have haq : (0 : ℚ) < a := by exact_mod_cast hpos
    have hmod := Int.ediv_add_emod (a * 100) b
    have hm0 := Int.emod_nonneg (a * 100) (by omega : b ≠ 0)
    have hm1 := Int.emod_lt_of_pos (a * 100) hb
    have hk0 : 0 ≤ a * 100 / b := Int.ediv_nonneg (by omega) (by omega)
    have hk100 : a * 100 / b ≤ 100 := by
      apply Int.ediv_le_of_le_mul hb
      nlinarith
    -- the exact quotient lies between `k` and `k + 1 - 1 / b`
    have hlo : ((a * 100 / b : Int) : ℚ) ≤ 100 * (a : ℚ) / b := by
      rw [le_div_iff₀ hbq]
      have : (a * 100 / b) * b ≤ 100 * a := by nlinarith
      exact_mod_cast this
    have hhi : 100 * (a : ℚ) / b ≤ ((a * 100 / b : Int) : ℚ) + 1 - 1 / b := by
      rw [div_le_iff₀ hbq]
      have : 100 * a ≤ (a * 100 / b + 1) * b - 1 := by nlinarith
      have hq : (100 : ℚ) * a ≤ (((a * 100 / b : Int) : ℚ) + 1) * b - 1 := by exact_mod_cast this
      have : (((a * 100 / b : Int) : ℚ) + 1 - 1 / b) * b = (((a * 100 / b : Int) : ℚ) + 1) * b - 1 := by
        field_simp
      rw [this]; exact hq
    have hx100 : 100 * (a : ℚ) / b ≤ 100 := by
      rw [div_le_iff₀ hbq]
      have : (a : ℚ) ≤ b := by exact_mod_cast hab
      linarith
    have hx0 : 0 < 100 * (a : ℚ) / b := by positivity
    obtain ⟨v1, v2⟩ := abs_le.mp hv
    unfold unitRoundoff at v1 v2
    have hkq0 : (0 : ℚ) ≤ ((a * 100 / b : Int) : ℚ) := by exact_mod_cast hk0
    generalize 100 * (a : ℚ) / b = x at *
    have hsmall : x * (5 * (1 / 2 ^ 53)) ≤ 1 / 2 ^ 44 := by
      norm_num at hx100 ⊢; linarith
    rw [huse]
    refine ⟨?_, ?_, ?_, ?_⟩
    · rw [Int.le_floor]
      push_cast
      have : x * (5 * (1 / 2 ^ 53)) ≤ x := by
        norm_num; linarith
      linarith
    · have : ⌊v⌋ < 101 := by
        rw [Int.floor_lt]
        push_cast
        norm_num at hsmall ⊢
        linarith
      omega
    · rw [Int.le_floor]
      push_cast
      norm_num at hsmall ⊢
      linarith
    · intro hb44
      have : ⌊v⌋ < a * 100 / b + 1 := by
        rw [Int.floor_lt]
        push_cast
        have hbq44 : (b : ℚ) ≤ 2 ^ 44 := by exact_mod_cast hb44
        have hinv : 1 / (2 : ℚ) ^ 44 ≤ 1 / b := by
          exact one_div_le_one_div_of_le hbq hbq44
        have hstrict : x * (5 * (1 / 2 ^ 53)) < 1 / 2 ^ 44 := by
          norm_num at hx100 ⊢; linarith
        linarith
      omega

theorem probeRound_usability (k : Nat) (n : proxyNode) (r : ProbeInput) (hk : k + 1 < 2 ^ 63)
    (h : ProbeInv k n) :
    (probeRound n r).total = k + 1
    ∧ (probeRound n r).usability
        = proxyNode.usabilityOf (probeRound n r).okcnt (probeRound n r).total
    ∧ 0 ≤ (probeRound n r).okcnt ∧ (probeRound n r).okcnt ≤ (probeRound n r).total := by
  obtain ⟨a1, a2, a3, _, _⟩ := (probeOutcome_inv k n r hk h).1
  refine ⟨by simpa [probeRound] using a1, rfl, a2, ?_⟩
  show (probeOutcome n r).okcnt ≤ (probeOutcome n r).total
  rw [a1]; exact a3

/-- C5 (as amended): after every completed probe round (fewer than `2 ^ 44` of
them so far) `total` is positive and `usability` is the `float64` expression
`int64((float64(okcnt) / float64(total)) * 100.0)`, which is
`floor(okcnt * 100 / total)` or one less; a node that has not probed has
`total = 0` and `usability = 0`. -/
theorem C5_usability_float (rs : List ProbeInput) (r : ProbeInput)
    (hlen : rs.length < 2 ^ 44) :
    0 < (probeRounds NewProxyNode (rs ++ [r])).total
    ∧ (probeRounds NewProxyNode (rs ++ [r])).usability
        = proxyNode.usabilityOf (probeRounds NewProxyNode (rs ++ [r])).okcnt
            (probeRounds NewProxyNode (rs ++ [r])).total
    ∧ (probeRounds NewProxyNode (rs ++ [r])).okcnt * 100
          / (probeRounds NewProxyNode (rs ++ [r])).total - 1
        ≤ (probeRounds NewProxyNode (rs ++ [r])).usability
    ∧ (probeRounds NewProxyNode (rs ++ [r])).usability
        ≤ (probeRounds NewProxyNode (rs ++ [r])).okcnt * 100
            / (probeRounds NewProxyNode (rs ++ [r])).total
    ∧ NewProxyNode.total = 0 ∧ NewProxyNode.usability = 0 := by
  have h0 := probeRounds_new_inv rs (by omega)
  obtain ⟨t, u, o1, o2⟩ := probeRound_usability rs.length _ r (by omega) h0
  rw [probeRounds_append]
  have hpos : 0 < (probeRound (probeRounds NewProxyNode rs) r).total := by
    rw [t]; positivity
  have hb := usabilityOf_bounds _ _ o1 o2 hpos
  have h44 : (probeRound (probeRounds NewProxyNode rs) r).total ≤ 2 ^ 44 := by
    rw [t]
    have : rs.length + 1 ≤ 2 ^ 44 := by omega
    exact_mod_cast this
  refine ⟨hpos, u, ?_, ?_, rfl, rfl⟩
  · rw [u]; exact hb.2.2.1
  · rw [u]; exact hb.2.2.2 h44

/-- Witness of C5: a bad round followed by a good one. -/
theorem C5_usability_float_witness :
    [badRound].length < 2 ^ 44
    ∧ (probeRounds NewProxyNode ([badRound] ++ [goodRound])).usability
        = proxyNode.usabilityOf (probeRounds NewProxyNode ([badRound] ++ [goodRound])).okcnt
            (probeRounds NewProxyNode ([badRound] ++ [goodRound])).total :=
  ⟨by decide, (C5_usability_float [badRound] goodRound (by decide)).2.1⟩

set_option maxRecDepth 100000 in
/-- C5 (fails on the code): after the 50 rounds of `fiftyRounds` the node has
`okcnt = 29` and `total = 50`, so `floor(okcnt * 100 / total)` is 58, but
`usability` is 57: the `float64` quotient 29 / 50 times 100 is just below 58. -/
theorem C5_usability_below_floor :
    (probeRounds NewProxyNode fiftyRounds).okcnt = 29
    ∧ (probeRounds NewProxyNode fiftyRounds).total = 50
    ∧ (probeRounds NewProxyNode fiftyRounds).okcnt * 100
        / (probeRounds NewProxyNode fiftyRounds).total = 58
    ∧ (probeRounds NewProxyNode fiftyRounds).usability = 57 := by
  decide

/-- C8: for a node made by `NewProxyNode`, `usability` lies in `[0, 100]` before
the first probe round and after every round (fewer than `2 ^ 63` rounds, so
that no `int64` counter wraps), whatever the outcomes of the rounds. -/
theorem C8_usability_range (rs : List ProbeInput) (hlen : rs.length < 2 ^ 63) :
    0 ≤ (probeRounds NewProxyNode rs).usability
    ∧ (probeRounds NewProxyNode rs).usability ≤ 100 := by
  rcases List.eq_nil_or_concat rs with rfl | ⟨rs1, r, rfl⟩
  · simp [probeRounds, NewProxyNode]
  · simp only [List.concat_eq_append, List.length_append, List.length_singleton] at hlen
    rw [List.concat_eq_append, probeRounds_append]
    have h0 := probeRounds_new_inv rs1 (by omega)
    obtain ⟨t, u, o1, o2⟩ := probeRound_usability rs1.length _ r hlen h0
    have hpos : 0 < (probeRound (probeRounds NewProxyNode rs1) r).total := by
      rw [t]; positivity
    have hb := usabilityOf_bounds _ _ o1 o2 hpos
    rw [u]
    exact ⟨hb.1, hb.2.1⟩

/-- Witness of C8: a bad round followed by a good one. -/
theorem C8_usability_range_witness :
    [badRound, goodRound].length < 2 ^ 63
    ∧ 0 ≤ (probeRounds NewProxyNode [badRound, goodRound]).usability
    ∧ (probeRounds NewProxyNode [badRound, goodRound]).usability ≤ 100 :=
  ⟨by decide, C8_usability_range [badRound, goodRound] (by decide)⟩

/-! ### Helper lemmas: a quotient of equal operands -/

theorem round53_self (m : Nat) (hm : 0 < m) : round53 m m = (2 ^ 52, -52) := by
  have hne : m ≠ 0 := by omega
  have hb : binade m m = 0 := by simp [binade]
  have hs : scale m m 52 = (m * 2 ^ 52, m) := by simp [scale]
  have hr : roundHalfEven (m * 2 ^ 52) m = 2 ^ 52 := by
    unfold roundHalfEven
    rw [Nat.mul_mod_right, Nat.mul_div_cancel_left _ hm]
    simp [hm]
  simp only [round53, hne, ↓reduceIte, hb, sub_zero, hs, hr, zero_sub]

theorem div_self_pos (m : Nat) (e : Int) (hm : 0 < m) :
    Float64.div (Float64.finite false m e) (Float64.finite false m e)
      = Float64.finite false (2 ^ 52) (-52) := by
  have hne : m ≠ 0 := by omega
  have hs : scale m m 0 = (m, m) := by simp [scale]
  simp only [Float64.div, hne, ↓reduceIte, sub_self, hs, round53_self m hm, Bool.xor_false]

theorem usabilityOf_self (a : Int) (ha : 0 < a) : proxyNode.usabilityOf a a = 100 := by
  obtain ⟨m, e, hA, hm, _⟩ := ofInt_pos a ha
  unfold proxyNode.usabilityOf
  rw [hA, div_self_pos m e hm]
  set_option maxRecDepth 10000 in decide

/-! ### Helper lemmas: runs of equal outcomes -/

theorem probeRounds_failing (rs : List ProbeInput) (k : Nat) (n : proxyNode)
    (hfail : ∀ r ∈ rs, r.dialOk = false) (hk : k + rs.length < 2 ^ 63)
    (h : n.total = k ∧ n.okcnt = 0 ∧ n.failcnt = k ∧ n.usability = 0) :
    (probeRounds n rs).total = (k + rs.length : Nat) ∧ (probeRounds n rs).okcnt = 0
    ∧ (probeRounds n rs).failcnt = (k + rs.length : Nat) ∧ (probeRounds n rs).usability = 0 := by
  induction rs generalizing k n with
  | nil => simpa [probeRounds] using h
  | cons r rs ih =>
    simp only [List.length_cons] at hk
    obtain ⟨h1, h2, h3, _⟩ := h
    have hr : r.dialOk = false := hfail r (List.mem_cons_self _ _)
    have e1 : addInt64 n.total 1 = n.total + 1 := addInt64_succ _ (by omega) (by omega)
    have e3 : addInt64 n.failcnt 1 = n.failcnt + 1 := addInt64_succ _ (by omega) (by omega)
    have hstep : (probeRound n r).total = (k + 1 : Nat) ∧ (probeRound n r).okcnt = 0
        ∧ (probeRound n r).failcnt = (k + 1 : Nat) ∧ (probeRound n r).usability = 0 := by
      have hu : proxyNode.usabilityOf 0 (n.total + 1) = 0 := usabilityOf_zero _ (by omega)
      simp only [probeRound, probeOutcome, hr, Bool.false_eq_true, ↓reduceIte, e1, e3, h2, hu]
      refine ⟨?_, trivial, ?_, trivial⟩ <;> push_cast <;> omega
    have := ih (k + 1) (probeRound n r) (fun x hx => hfail x (List.mem_cons_of_mem _ hx))
      (by omega) hstep
    have e : k + 1 + rs.length = k + (rs.length + 1) := by omega
    simpa [probeRounds, e] using this

theorem probeRounds_passing (rs : List ProbeInput) (k : Nat) (n : proxyNode)
    (hpass : ∀ r ∈ rs, r.dialOk = true ∧ r.checkOk = true) (hk : k + rs.length < 2 ^ 63)
    (h : n.total = k ∧ n.okcnt = k ∧ n.failcnt = 0 ∧ (0 < k → n.usability = 100)) :
    (probeRounds n rs).total = (k + rs.length : Nat)
    ∧ (probeRounds n rs).okcnt = (k + rs.length : Nat)
    ∧ (probeRounds n rs).failcnt = 0
    ∧ (0 < k + rs.length → (probeRounds n rs).usability = 100) := by
  induction rs generalizing k n with
  | nil => simpa [probeRounds] using h
  | cons r rs ih =>
    simp only [List.length_cons] at hk
    obtain ⟨h1, h2, h3, _⟩ := h
    obtain ⟨hr1, hr2⟩ := hpass r (List.mem_cons_self _ _)
    have e1 : addInt64 n.total 1 = n.total + 1 := addInt64_succ _ (by omega) (by omega)
    have e2 : addInt64 n.okcnt 1 = n.okcnt + 1 := addInt64_succ _ (by omega) (by omega)
    have hstep : (probeRound n r).total = (k + 1 : Nat) ∧ (probeRound n r).okcnt = (k + 1 : Nat)
        ∧ (probeRound n r).failcnt = 0 ∧ (0 < k + 1 → (probeRound n r).usability = 100) := by
      have hu : proxyNode.usabilityOf (n.okcnt + 1) (n.total + 1) = 100 := by
        rw [h1, h2]; exact usabilityOf_self _ (by omega)
      simp only [probeRound, probeOutcome, hr1, hr2, ↓reduceIte, e1, e2, hu]
      refine ⟨?_, ?_, trivial, fun _ => trivial⟩ <;> push_cast <;> omega
    have := ih (k + 1) (probeRound n r) (fun x hx => hpass x (List.mem_cons_of_mem _ hx))
      (by omega) hstep
    have e : k + 1 + rs.length = k + (rs.length + 1) := by omega
    simpa [probeRounds, e] using this

/-- C11: a fresh node whose dialer fails on every round has, after `N` completed
probe rounds (`N < 2 ^ 63`, so that no `int64` counter wraps), `total = N`,
`okcnt = 0`, `usability = 0` and `failcnt = N`. -/
theorem C11_dialer_always_fails (rs : List ProbeInput)
    (hfail : ∀ r ∈ rs, r.dialOk = false) (hlen : rs.length < 2 ^ 63) :
    (probeRounds NewProxyNode rs).total = (rs.length : Int)
    ∧ (probeRounds NewProxyNode rs).okcnt = 0
    ∧ (probeRounds NewProxyNode rs).usability = 0
    ∧ (probeRounds NewProxyNode rs).failcnt = (rs.length : Int) := by
  have := probeRounds_failing rs 0 NewProxyNode hfail (by omega) (by simp [NewProxyNode])
  simp only [Nat.zero_add] at this
  exact ⟨this.1, this.2.1, this.2.2.2, this.2.2.1⟩

/-- Witness of C11: three rounds with a failing dial. -/
theorem C11_dialer_always_fails_witness :
    (∀ r ∈ [badRound, badRound, badRound], r.dialOk = false)
    ∧ (probeRounds NewProxyNode [badRound, badRound, badRound]).total = 3
    ∧ (probeRounds NewProxyNode [badRound, badRound, badRound]).okcnt = 0
    ∧ (probeRounds NewProxyNode [badRound, badRound, badRound]).usability = 0
    ∧ (probeRounds NewProxyNode [badRound, badRound, badRound]).failcnt = 3 :=
  ⟨by decide, C11_dialer_always_fails [badRound, badRound, badRound] (by decide) (by decide)⟩

/-- C12: a fresh node whose dialer succeeds and whose checker validates true on
every round has, after `N ≥ 1` completed probe rounds (`N < 2 ^ 63`, so that no
`int64` counter wraps), `total = N`, `okcnt = N`, `failcnt = 0` and
`usability = 100`. -/
theorem C12_probe_always_passes (rs : List ProbeInput)
    (hpass : ∀ r ∈ rs, r.dialOk = true ∧ r.checkOk = true)
    (hpos : 1 ≤ rs.length) (hlen : rs.length < 2 ^ 63) :
    (probeRounds NewProxyNode rs).total = (rs.length : Int)
    ∧ (probeRounds NewProxyNode rs).okcnt = (rs.length : Int)
    ∧ (probeRounds NewProxyNode rs).failcnt = 0
    ∧ (probeRounds NewProxyNode rs).usability = 100 := by
  have := probeRounds_passing rs 0 NewProxyNode hpass (by omega) (by simp [NewProxyNode])
  simp only [Nat.zero_add] at this
  exact ⟨this.1, this.2.1, this.2.2.1, this.2.2.2 (by omega)⟩

/-- Witness of C12: one good round, the first of a node. -/
theorem C12_probe_always_passes_witness :
    (∀ r ∈ [goodRound], r.dialOk = true ∧ r.checkOk = true)
    ∧ (probeRounds NewProxyNode [goodRound]).total = 1
    ∧ (probeRounds NewProxyNode [goodRound]).okcnt = 1
    ∧ (probeRounds NewProxyNode [goodRound]).failcnt = 0
    ∧ (probeRounds NewProxyNode [goodRound]).usability = 100 :=
  ⟨by decide, C12_probe_always_passes [goodRound] (by decide) (by decide) (by decide)⟩

/-- C16: `Dial` on a node whose `count` is an `int64` below the maximum. When the
dialer returns an error, `Dial` returns that error and no connection, and no
node changes; when the dialer returns a connection, `Dial` returns a connection
wrapping it for this node, `count` is one more, and nothing else changes. So
`Dial` returns an error exactly when the dialer does. -/
theorem C16_dial (h : Heap) (p : Ptr) (res : Except Nat Nat)
    (h1 : -2 ^ 63 ≤ (h p).count) (h2 : (h p).count < 2 ^ 63 - 1) :
    (∀ err, res = Except.error err → proxyNode.Dial h p res = (h, Except.error err))
    ∧ (∀ conn, res = Except.ok conn →
        (proxyNode.Dial h p res).2 = Except.ok { Conn := conn, node := some p }
        ∧ ((proxyNode.Dial h p res).1 p).count = (h p).count + 1
        ∧ (proxyNode.Dial h p res).1 p = { h p with count := (h p).count + 1 }
        ∧ ∀ q, q ≠ p → (proxyNode.Dial h p res).1 q = h q)
    ∧ ((∃ err, (proxyNode.Dial h p res).2 = Except.error err) ↔ ∃ err, res = Except.error err) := by
  have e : addInt64 (h p).count 1 = (h p).count + 1 := addInt64_succ _ h1 h2
  refine ⟨?_, ?_, ?_⟩
  · rintro err rfl
    rfl
  · rintro conn rfl
    refine ⟨rfl, ?_, ?_, ?_⟩
    · simp [proxyNode.Dial, Heap.set, e]
    · simp [proxyNode.Dial, Heap.set, e]
    · intro q hq
      simp [proxyNode.Dial, Heap.set, hq]
  · cases res with
    | error err => simp [proxyNode.Dial]
    | ok conn => simp [proxyNode.Dial]

/-- Witness of C16: a successful dial on a fresh node. -/
theorem C16_dial_witness :
    (-2 ^ 63 ≤ (freshConnState.heap 0).count ∧ (freshConnState.heap 0).count < 2 ^ 63 - 1)
    ∧ (proxyNode.Dial freshConnState.heap 0 (Except.ok 7)).2
        = Except.ok { Conn := 7, node := some 0 }
    ∧ ((proxyNode.Dial freshConnState.heap 0 (Except.ok 7)).1 0).count
        = (freshConnState.heap 0).count + 1 :=
  ⟨by decide,
    ((C16_dial freshConnState.heap 0 (Except.ok 7) (by decide) (by decide)).2.1 7 rfl).1,
    ((C16_dial freshConnState.heap 0 (Except.ok 7) (by decide) (by decide)).2.1 7 rfl).2.1⟩

/-- C19: `before` is a strict partial order on nodes: no node is before itself;
if `a` is before `b` then `b` is not before `a`; if `a` is before `b` and `b`
before `c` then `a` is before `c`. -/
theorem C19_before_strict_partial_order (a b c : proxyNode) :
    a.before a = false
    ∧ (a.before b = true → b.before a = false)
    ∧ (a.before b = true → b.before c = true → a.before c = true) := by
  simp only [proxyNode.before, Bool.and_eq_true, decide_eq_true_eq, Bool.and_eq_false_imp,
    decide_eq_false_iff_not]
  refine ⟨?_, ?_, ?_⟩
  · intro h; omega
  · intro h; omega
  · intro h1 h2; omega

/-- Witness of C19: the three nodes of `chainHeap`. -/
theorem C19_before_strict_partial_order_witness :
    (chainHeap 0).before (chainHeap 1) = true ∧ (chainHeap 1).before (chainHeap 2) = true
    ∧ (chainHeap 1).before (chainHeap 0) = false
    ∧ (chainHeap 0).before (chainHeap 2) = true :=
  ⟨by decide, by decide,
    (C19_before_strict_partial_order (chainHeap 0) (chainHeap 1) (chainHeap 2)).2.1 (by decide),
    (C19_before_strict_partial_order (chainHeap 0) (chainHeap 1) (chainHeap 2)).2.2 (by decide)
      (by decide)⟩

/-! ### Helper lemmas: ranking -/

theorem before_asymm (a b : proxyNode) (h : a.before b = true) : b.before a = false := by
  simp only [proxyNode.before, Bool.and_eq_true, decide_eq_true_eq, Bool.and_eq_false_imp,
    decide_eq_false_iff_not] at h ⊢
  intro _; omega

/-- What holds of two nodes where the length counter is right: on a registry
that holds exactly two nodes A and B under distinct keys, with `Len() = 2` and
the ranking flag clear, if A is `before` B then `GetSortList` returns the list
A, B, whichever of the two `Range` visits first, and leaves the flag clear. -/
theorem two_nodes_ranked_of_len (large : LargeSort) (h : Heap) (m : proxyManager)
    (kA kB : Key) (a b : Ptr) (_hkeys : kA ≠ kB) (hlen : m.length = 2) (hflag : m.flags = 0)
    (hent : m.entries = [(kA, Value.node a), (kB, Value.node b)]
      ∨ m.entries = [(kB, Value.node b), (kA, Value.node a)])
    (hbefore : (h a).before (h b) = true) :
    (m.GetSortList large h).2 = some [a, b] ∧ (m.GetSortList large h).1.flags = 0 := by
  have hba := before_asymm _ _ hbefore
  obtain ⟨entries, idx, length, flags, lists⟩ := m
  simp only at hlen hflag hent
  subst hlen hflag
  rcases hent with he | he
  · subst he
    simp [proxyManager.GetSortList, casUint32, proxyManager.Len, mapRange, sortListVisit,
      sortSort, insertionSort, insertionOuter, insertionInner, proxyManager.Less, hba]
  · subst he
    simp [proxyManager.GetSortList, casUint32, proxyManager.Len, mapRange, sortListVisit,
      sortSort, insertionSort, insertionOuter, insertionInner, proxyManager.Less, hbefore,
      proxyManager.Swap]

/-- An instance of `two_nodes_ranked_of_len`: A with usability 80 probed at 3000,
B with usability 50 probed at 2000, B stored first and visited first. -/
theorem two_nodes_ranked_of_len_witness :
    twoNodeRegistry.length = 2 ∧ twoNodeRegistry.flags = 0
    ∧ twoNodeRegistry.entries = [(10, Value.node 0), (12, Value.node 2)]
    ∧ (rankHeap 2).before (rankHeap 0) = true
    ∧ (twoNodeRegistry.GetSortList (fun _ _ _ => none) rankHeap).2 = some [2, 0] :=
  ⟨by decide, by decide, by decide, by decide,
    (two_nodes_ranked_of_len (fun _ _ _ => none) rankHeap twoNodeRegistry 12 10 2 0 (by decide)
      (by decide) (by decide) (Or.inr (by decide)) (by decide)).1⟩

/-- C14 (fails on the code): two registries reached by `Store` and `Delete` with
the flag clear. After `Store(0, a); Store(0, a)` one node is registered and
`Len()` is 2: `GetSortList` panics (`Less(1, 0)` is out of range) and leaves the
flag set. After `Store(0, a); Store(1, b); Delete(5)` two nodes are registered
and `Len()` is 1: the list returned has 2 elements. -/
theorem C14_length_differs_from_len :
    ∀ large : LargeSort,
      restoredRegistry.flags = 0 ∧ restoredRegistry.entries = [(0, Value.node 0)]
      ∧ restoredRegistry.Len = 2
      ∧ (restoredRegistry.GetSortList large freshHeap).2 = none
      ∧ (restoredRegistry.GetSortList large freshHeap).1.flags = 1
      ∧ overDeletedRegistry.flags = 0 ∧ overDeletedRegistry.Len = 1
      ∧ (overDeletedRegistry.GetSortList large freshHeap).2 = some [0, 1] :=
  fun _ => ⟨rfl, rfl, by decide, rfl, rfl, rfl, by decide, rfl⟩

/-- C15 (fails on the code): `LoadOrStore` never changes `Len()`. On a fresh
registry `LoadOrStore(0, a)` inserts the node and reports it as new, and `Len()`
stays 0, where `Store(0, a)` makes it 1; after two such calls two entries are
held and `Len()` is 0. -/
theorem C15_loadOrStore_keeps_len :
    (∀ (m : proxyManager) (key : Key) (value : Value), (m.LoadOrStore key value).1.Len = m.Len)
    ∧ (NewProxyManager.LoadOrStore 0 (Value.node 0)).1.entries = [(0, Value.node 0)]
    ∧ (NewProxyManager.LoadOrStore 0 (Value.node 0)).2 = (Value.node 0, false)
    ∧ (NewProxyManager.LoadOrStore 0 (Value.node 0)).1.Len = 0
    ∧ (NewProxyManager.Store 0 (Value.node 0)).Len = 1
    ∧ loadOrStoreRegistry.entries.length = 2 ∧ loadOrStoreRegistry.Len = 0 := by
  refine ⟨?_, by decide, by decide, by decide, by decide, by decide, by decide⟩
  intro m key value
  unfold proxyManager.LoadOrStore
  cases mapLoad m.entries key <;> rfl

/-- C20 (fails on the code): after `Store(0, a); Store(1, b); Store(1, b)` the
flag is clear, `Len()` is 3 and the staged list has 2 elements: `GetSortList`
panics, `Less(2, 1)` being out of range. After `LoadOrStore(0, a);
LoadOrStore(1, b)` `Len()` is 0 and the staged list has 2 elements. -/
theorem C20_len_differs_from_staged_list :
    ∀ large : LargeSort,
      threeStoresRegistry.flags = 0 ∧ threeStoresRegistry.Len = 3
      ∧ (stagedList threeStoresRegistry).length = 2
      ∧ (stagedList threeStoresRegistry)[2]? = none
      ∧ (threeStoresRegistry.GetSortList large freshHeap).2 = none
      ∧ loadOrStoreRegistry.flags = 0 ∧ loadOrStoreRegistry.Len = 0
      ∧ (stagedList loadOrStoreRegistry).length = 2 :=
  fun _ => ⟨rfl, by decide, rfl, rfl, rfl, rfl, by decide, rfl⟩

/-! ### Helper lemmas: the insertion sort on a consistent registry -/

theorem swap_adjacent_perm (l : List Ptr) (j : Nat) (hj : j + 1 < l.length) :
    ∃ a b, l.get? (j + 1) = some a ∧ l.get? j = some b
      ∧ ((l.set (j + 1) b).set j a).Perm l := by
  induction l generalizing j with
  | nil => simp at hj
  | cons x l ih =>
    cases j with
    | zero =>
      cases l with
      | nil => simp at hj
      | cons y l =>
        exact ⟨y, x, rfl, rfl, by simpa using List.Perm.swap x y l⟩
    | succ j =>
      obtain ⟨a, b, h1, h2, h3⟩ := ih j (by simpa using hj)
      exact ⟨a, b, by simpa using h1, by simpa using h2, by simpa using h3⟩

theorem SameButOrder.refl (m : proxyManager) : SameButOrder m m :=
  ⟨List.Perm.refl _, rfl, rfl, rfl, rfl⟩

theorem SameButOrder.trans {m2 m1 m : proxyManager} (h2 : SameButOrder m2 m1)
    (h1 : SameButOrder m1 m) : SameButOrder m2 m :=
  ⟨h2.1.trans h1.1, h2.2.1.trans h1.2.1, h2.2.2.1.trans h1.2.2.1,
    h2.2.2.2.1.trans h1.2.2.2.1, h2.2.2.2.2.trans h1.2.2.2.2⟩

theorem insertionInner_ok (h : Heap) (a : Nat) (j : Nat) (m : proxyManager)
    (hj : j < m.lists.length) :
    ∃ m1, insertionInner h a j m = some m1 ∧ SameButOrder m1 m := by
  induction j generalizing m with
  | zero => exact ⟨m, rfl, SameButOrder.refl m⟩
  | succ j ih =>
    obtain ⟨x, y, hx, hy, hp⟩ := swap_adjacent_perm m.lists j hj
    unfold insertionInner
    by_cases ha : a < j + 1
    · simp only [ha, ↓reduceIte, proxyManager.Less, hx, hy]
      cases (h x).before (h y) with
      | false => exact ⟨m, rfl, SameButOrder.refl m⟩
      | true =>
        simp only [proxyManager.Swap, hx, hy]
        have hlen : j < ((m.lists.set (j + 1) y).set j x).length := by
          simp; omega
        obtain ⟨m1, e1, s1⟩ := ih { m with lists := (m.lists.set (j + 1) y).set j x } hlen
        exact ⟨m1, e1, s1.trans ⟨hp, rfl, rfl, rfl, rfl⟩⟩
    · simp only [ha, ↓reduceIte]
      exact ⟨m, rfl, SameButOrder.refl m⟩

theorem insertionOuter_ok (h : Heap) (a : Nat) (k i : Nat) (m : proxyManager)
    (hi : i + k ≤ m.lists.length) :
    ∃ m1, insertionOuter h a k i m = some m1 ∧ SameButOrder m1 m := by
  induction k generalizing i m with
  | zero => exact ⟨m, rfl, SameButOrder.refl m⟩
  | succ k ih =>
    obtain ⟨m1, e1, s1⟩ := insertionInner_ok h a i m (by omega)
    have hlen : i + 1 + k ≤ m1.lists.length := by
      rw [s1.1.length_eq]; omega
    obtain ⟨m2, e2, s2⟩ := ih (i + 1) m1 hlen
    refine ⟨m2, ?_, s2.trans s1⟩
    simp only [insertionOuter, e1, e2]

theorem sortSort_ok (large : LargeSort) (h : Heap) (m : proxyManager)
    (hlen : m.Len = (m.lists.length : Int)) (hsix : m.lists.length ≤ 6) :
    ∃ m1, sortSort large h m = some m1 ∧ SameButOrder m1 m := by
  unfold sortSort
  by_cases h1 : m.Len ≤ 1
  · simp only [h1, ↓reduceIte]
    exact ⟨m, rfl, SameButOrder.refl m⟩
  · have h6 : m.Len ≤ 6 := by rw [hlen]; exact_mod_cast hsix
    simp only [h1, ↓reduceIte, h6, insertionSort]
    apply insertionOuter_ok
    rw [hlen] at h1 ⊢
    simp only [Int.toNat_ofNat]
    omega

theorem staged_lists (es : List (Key × Value)) (m : proxyManager) :
    (mapRange es sortListVisit m).lists = m.lists ++ entryPtrs es
    ∧ (mapRange es sortListVisit m).entries = m.entries
    ∧ (mapRange es sortListVisit m).length = m.length
    ∧ (mapRange es sortListVisit m).flags = m.flags := by
  induction es generalizing m with
  | nil => simp [mapRange, entryPtrs]
  | cons e es ih =>
    obtain ⟨k, v⟩ := e
    have hstep : mapRange ((k, v) :: es) sortListVisit m
        = mapRange es sortListVisit (sortListVisit k v m) := by
      simp [mapRange]
    rw [hstep]
    cases v with
    | node p =>
      obtain ⟨a1, a2, a3, a4⟩ := ih (sortListVisit k (Value.node p) m)
      exact ⟨by rw [a1]; simp [sortListVisit, entryPtrs], by rw [a2]; rfl, by rw [a3]; rfl,
        by rw [a4]; rfl⟩
    | other tag =>
      obtain ⟨a1, a2, a3, a4⟩ := ih (sortListVisit k (Value.other tag) m)
      exact ⟨by rw [a1]; simp [sortListVisit, entryPtrs], by rw [a2]; rfl, by rw [a3]; rfl,
        by rw [a4]; rfl⟩

/-- What holds of `GetSortList` where the length counter is right: on a registry
with the flag clear, at most 6 registered nodes and `Len()` equal to their
number, `GetSortList` does not panic, returns a permutation of the registered
nodes, and leaves the entries as they were and the flag clear. -/
theorem getSortList_of_consistent_len (large : LargeSort) (h : Heap) (m : proxyManager)
    (hflag : m.flags = 0) (hlen : m.Len = ((entryPtrs m.entries).length : Int))
    (hsix : (entryPtrs m.entries).length ≤ 6) :
    ∃ l, (m.GetSortList large h).2 = some l ∧ l.Perm (entryPtrs m.entries)
      ∧ (l.length : Int) = m.Len
      ∧ (m.GetSortList large h).1.flags = 0
      ∧ (m.GetSortList large h).1.entries = m.entries := by
  obtain ⟨s1, s2, s3, s4⟩ := staged_lists m.entries { m with flags := 1, lists := [] }
  simp only [List.nil_append] at s1
  have hLen' : (mapRange m.entries sortListVisit { m with flags := 1, lists := [] }).Len
      = m.Len := by
    simp only [proxyManager.Len, s3]
  obtain ⟨m1, e1, p1⟩ := sortSort_ok large h
    (mapRange m.entries sortListVisit { m with flags := 1, lists := [] })
    (by rw [hLen', s1, hlen]) (by rw [s1]; exact hsix)
  have hneg : ¬ (m.Len < 0) := by rw [hlen]; omega
  refine ⟨m1.lists, ?_, ?_, ?_, ?_, ?_⟩
  · simp [proxyManager.GetSortList, casUint32, hflag, hneg, e1]
  · rw [← s1]; exact p1.1
  · rw [p1.1.length_eq, s1, hlen]
  · simp [proxyManager.GetSortList, casUint32, hflag, hneg, e1]
  · simp [proxyManager.GetSortList, casUint32, hflag, hneg, e1, p1.2.1, s2]

/-! ### Helper lemmas: life cycle of a node -/

theorem loopAdvance_steady (n : proxyNode) (pc : LoopPc) :
    (loopAdvance n pc).1.exit = n.exit ∧ (loopAdvance n pc).1.count = n.count
    ∧ ((loopAdvance n pc).2 ≠ none → (loopAdvance n pc).1.flags = n.flags) := by
  cases pc <;> simp [loopAdvance]

theorem loopAdvance_idle (n : proxyNode) (pc : LoopPc) (h : pc.idle = true) :
    probeFields (loopAdvance n pc).1 = probeFields n
    ∧ ∀ pc1, (loopAdvance n pc).2 = some pc1 → pc1.idle = true := by
  cases pc <;> simp [LoopPc.idle] at h <;> simp [loopAdvance, probeFields, LoopPc.idle]

theorem apply_loopInv (s : NodeRun) (e : NodeEvent) (h : LoopInv s) :
    LoopInv (NodeEvent.apply s e) := by
  unfold LoopInv at h ⊢
  cases e with
  | startCheck =>
    rcases h with ⟨hf, hl⟩ | ⟨hf, hl⟩
    · right; simp [NodeEvent.apply, proxyNode.StartCheck, casUint32, hf, hl]
    · right; simp [NodeEvent.apply, proxyNode.StartCheck, casUint32, hf, hl]
  | iterate g i =>
    cases hg : s.procs.get? g with
    | none =>
      rw [List.get?_eq_getElem?] at hg
      simpa [NodeEvent.apply, hg] using h
    | some pc =>
      rw [List.get?_eq_getElem?] at hg
      cases pc <;> simpa [NodeEvent.apply, hg] using h
  | step g =>
    cases hg : s.procs.get? g with
    | none =>
      rw [List.get?_eq_getElem?] at hg
      simpa [NodeEvent.apply, hg] using h
    | some pc =>
      have hlt : g < s.procs.length := (List.get?_eq_some.mp hg).1
      obtain ⟨_, _, hfl⟩ := loopAdvance_steady s.node pc
      cases hadv : (loopAdvance s.node pc).2 with
      | some pc1 =>
        have hfl2 := hfl (by rw [hadv]; simp)
        simp only [NodeEvent.apply, hg, hadv, List.length_set, hfl2]
        exact h
      | none =>
        have hdef : pc = LoopPc.deferred := by
          cases pc <;> simp [loopAdvance] at hadv
          rfl
        subst hdef
        rcases h with ⟨_, hl⟩ | ⟨_, hl⟩
        · omega
        · left
          simp only [NodeEvent.apply, hg, loopAdvance, List.length_eraseIdx, hlt, hl]
          simp
          omega
  | close =>
    rcases h with ⟨hf, hl⟩ | ⟨hf, hl⟩
    · left; simp [NodeEvent.apply, proxyNode.Close, hf, hl]
    · right; simp [NodeEvent.apply, proxyNode.Close, hf, hl]
  | dial res =>
    cases res with
    | error err => simpa [NodeEvent.apply, proxyNode.Dial] using h
    | ok conn => simpa [NodeEvent.apply, proxyNode.Dial, Heap.set] using h
  | connClose => simpa [NodeEvent.apply, proxyConn.Close, Heap.set] using h

theorem runNode_loopInv (es : List NodeEvent) (s : NodeRun) (h : LoopInv s) :
    LoopInv (runNode s es) := by
  induction es generalizing s with
  | nil => simpa [runNode] using h
  | cons e es ih =>
    have := ih (NodeEvent.apply s e) (apply_loopInv s e h)
    simpa [runNode] using this

theorem apply_exit (s : NodeRun) (e : NodeEvent) (h : s.node.exit ≠ 0) :
    (NodeEvent.apply s e).node.exit = s.node.exit := by
  cases e with
  | startCheck => rfl
  | iterate g i =>
    cases hg : s.procs.get? g with
    | none => simp only [NodeEvent.apply, hg]
    | some pc => cases pc <;> simp only [NodeEvent.apply, hg]
  | step g =>
    cases hg : s.procs.get? g with
    | none => simp only [NodeEvent.apply, hg]
    | some pc =>
      have := (loopAdvance_steady s.node pc).1
      cases hadv : (loopAdvance s.node pc).2 <;> simp only [NodeEvent.apply, hg, hadv, this]
  | close => simp [NodeEvent.apply, proxyNode.Close, casUint32, h]
  | dial res =>
    cases res with
    | error err => simp [NodeEvent.apply, proxyNode.Dial]
    | ok conn => simp [NodeEvent.apply, proxyNode.Dial, Heap.set]
  | connClose => simp [NodeEvent.apply, proxyConn.Close, Heap.set]

theorem runNode_exit (es : List NodeEvent) (s : NodeRun) (h : s.node.exit ≠ 0) :
    (runNode s es).node.exit = s.node.exit := by
  induction es generalizing s with
  | nil => rfl
  | cons e es ih =>
    have hstep := apply_exit s e h
    have := ih (NodeEvent.apply s e) (by rw [hstep]; exact h)
    rw [hstep] at this
    simpa [runNode] using this

theorem apply_quiet (s : NodeRun) (e : NodeEvent) (h : s.node.exit ≠ 0)
    (hq : s.quiet = true) :
    (NodeEvent.apply s e).quiet = true
    ∧ probeFields (NodeEvent.apply s e).node = probeFields s.node := by
  simp only [NodeRun.quiet, List.all_eq_true] at hq ⊢
  cases e with
  | startCheck =>
    refine ⟨?_, rfl⟩
    intro pc hpc
    simp only [NodeEvent.apply] at hpc
    split at hpc
    · rcases List.mem_append.mp hpc with hp | hp
      · exact hq pc hp
      · rw [List.mem_singleton.mp hp]; rfl
    · exact hq pc hpc
  | iterate g i =>
    cases hg : s.procs.get? g with
    | none =>
      simp only [NodeEvent.apply, hg]
      exact ⟨hq, trivial⟩
    | some pc0 =>
      cases pc0 <;> simp only [NodeEvent.apply, hg] <;>
        first | exact ⟨hq, trivial⟩ | skip
      refine ⟨?_, trivial⟩
      intro pc hpc
      rcases List.mem_or_eq_of_mem_set hpc with hp | hp
      · exact hq pc hp
      · rw [hp]; simp [loopEnter, h, LoopPc.idle]
  | step g =>
    cases hg : s.procs.get? g with
    | none =>
      simp only [NodeEvent.apply, hg]
      exact ⟨hq, trivial⟩
    | some pc0 =>
      have hidle := hq pc0 (List.get?_mem hg)
      obtain ⟨hfields, hnext⟩ := loopAdvance_idle s.node pc0 hidle
      cases hadv : (loopAdvance s.node pc0).2 with
      | some pc1 =>
        simp only [NodeEvent.apply, hg, hadv]
        refine ⟨?_, hfields⟩
        intro pc hpc
        rcases List.mem_or_eq_of_mem_set hpc with hp | hp
        · exact hq pc hp
        · rw [hp]; exact hnext pc1 hadv
      | none =>
        simp only [NodeEvent.apply, hg, hadv]
        exact ⟨fun pc hpc => hq pc (List.mem_of_mem_eraseIdx hpc), hfields⟩
  | close =>
    exact ⟨hq, by simp [NodeEvent.apply, proxyNode.Close, casUint32, h, probeFields]⟩
  | dial res =>
    cases res with
    | error err => exact ⟨hq, by simp [NodeEvent.apply, proxyNode.Dial]⟩
    | ok conn => exact ⟨hq, by simp [NodeEvent.apply, proxyNode.Dial, Heap.set, probeFields]⟩
  | connClose =>
    exact ⟨hq, by simp [NodeEvent.apply, proxyConn.Close, Heap.set, probeFields]⟩

theorem runNode_quiet (es : List NodeEvent) (s : NodeRun) (h : s.node.exit ≠ 0)
    (hq : s.quiet = true) :
    (runNode s es).quiet = true ∧ probeFields (runNode s es).node = probeFields s.node := by
  induction es generalizing s with
  | nil => exact ⟨hq, rfl⟩
  | cons e es ih =>
    obtain ⟨q1, f1⟩ := apply_quiet s e h hq
    have hexit : (NodeEvent.apply s e).node.exit ≠ 0 := by
      rw [apply_exit s e h]; exact h
    obtain ⟨q2, f2⟩ := ih (NodeEvent.apply s e) hexit q1
    rw [f1] at f2
    exact ⟨by simpa [runNode] using q2, by simpa [runNode] using f2⟩

/-- The atomic operations of one round, from the increment of `total` back to
the loop head, amount to `probeRound` when nothing else writes the statistics
in between. -/
theorem round_of_atomic_steps (n : proxyNode) (r : ProbeInput) :
    runNode { node := n, procs := [LoopPc.addTotal r] } (List.replicate 10 (NodeEvent.step 0))
      = { node := probeRound n r, procs := [LoopPc.head] } := by
  obtain ⟨now, dialOk, checkOk, elapsed⟩ := r
  cases dialOk <;> cases checkOk <;>
    simp [runNode, List.replicate, NodeEvent.apply, loopAdvance, probeRound, probeOutcome]

/-- C17: `StartCheck` on a node whose probing flag is set starts no loop and
changes no field of the node. On an idle node (flag clear, no loop) it sets the
flag and starts the loop, a second `StartCheck` right after starts none, so the
two calls leave exactly one probe loop; and whatever happens to the node
afterwards, it never has more than one probe loop. -/
theorem C17_startCheck_single_loop (idle busy : proxyNode) (procs : List LoopPc)
    (es : List NodeEvent) (hidle : idle.flags = 0) (hbusy : busy.flags ≠ 0) :
    busy.StartCheck = (busy, false)
    ∧ NodeEvent.apply { node := busy, procs := procs } NodeEvent.startCheck
        = { node := busy, procs := procs }
    ∧ idle.StartCheck = ({ idle with flags := 1 }, true)
    ∧ idle.StartCheck.1.StartCheck = (idle.StartCheck.1, false)
    ∧ (runNode { node := idle, procs := [] } [NodeEvent.startCheck, NodeEvent.startCheck]).loops = 1
    ∧ (runNode { node := idle, procs := [] } es).loops ≤ 1 := by
  have hb : busy.StartCheck = (busy, false) := by
    simp [proxyNode.StartCheck, casUint32, hbusy]
  have hi : idle.StartCheck = ({ idle with flags := 1 }, true) := by
    simp [proxyNode.StartCheck, casUint32, hidle]
  refine ⟨hb, ?_, hi, ?_, ?_, ?_⟩
  · simp [NodeEvent.apply, hb]
  · rw [hi]; simp [proxyNode.StartCheck, casUint32]
  · simp [runNode, NodeEvent.apply, proxyNode.StartCheck, casUint32, hidle, NodeRun.loops]
  · have := runNode_loopInv es { node := idle, procs := [] } (Or.inl ⟨hidle, rfl⟩)
    unfold NodeRun.loops
    rcases this with ⟨_, hl⟩ | ⟨_, hl⟩ <;> omega

/-- Witness of C17: a fresh node as the idle one, a probing node as the busy one. -/
theorem C17_startCheck_single_loop_witness :
    (NewProxyNode.flags = 0 ∧ probingNode.flags ≠ 0)
    ∧ probingNode.StartCheck = (probingNode, false)
    ∧ (runNode { node := NewProxyNode, procs := [] }
        [NodeEvent.startCheck, NodeEvent.startCheck]).loops = 1 :=
  ⟨by decide,
    (C17_startCheck_single_loop NewProxyNode probingNode [LoopPc.head] [] (by decide)
      (by decide)).1,
    (C17_startCheck_single_loop NewProxyNode probingNode [LoopPc.head] [] (by decide)
      (by decide)).2.2.2.2.1⟩

/-- C18 (as amended): `Close` writes the exit flag only (1 if it was 0) and is
idempotent. From a node whose exit flag is set, whatever happens to it (calls of
`StartCheck`, `Close`, `Dial`, `Close` on a connection, the atomic operations of
its probe goroutines), the exit flag keeps its value and the loop head lets no
round begin. If moreover no round is in flight, none is in flight afterwards
either, and `total`, `okcnt`, `failcnt`, `timeout`, `usability` and `last` stay
as they are. -/
theorem C18_close_stops_new_rounds (n : proxyNode) (s : NodeRun) (es : List NodeEvent)
    (hexit : s.node.exit ≠ 0) :
    n.Close = { n with exit := if n.exit = 0 then 1 else n.exit }
    ∧ n.Close.Close = n.Close ∧ n.Close.exit ≠ 0
    ∧ (runNode s es).node.exit = s.node.exit
    ∧ (∀ i, loopEnter (runNode s es).node i = LoopPc.deferred)
    ∧ (s.quiet = true →
        (runNode s es).quiet = true
        ∧ (runNode s es).node.total = s.node.total ∧ (runNode s es).node.okcnt = s.node.okcnt
        ∧ (runNode s es).node.failcnt = s.node.failcnt
        ∧ (runNode s es).node.timeout = s.node.timeout
        ∧ (runNode s es).node.usability = s.node.usability
        ∧ (runNode s es).node.last = s.node.last) := by
  have hkeep := runNode_exit es s hexit
  refine ⟨?_, close_close n, ?_, hkeep, ?_, ?_⟩
  · simp only [proxyNode.Close, casUint32]
    by_cases h0 : n.exit = 0 <;> simp [h0]
  · simp only [proxyNode.Close, casUint32]
    by_cases h0 : n.exit = 0 <;> simp [h0]
  · intro i
    have : (runNode s es).node.exit ≠ 0 := by rw [hkeep]; exact hexit
    simp [loopEnter, this]
  · intro hq
    obtain ⟨q, hf⟩ := runNode_quiet es s hexit hq
    simp only [probeFields, Prod.mk.injEq] at hf
    obtain ⟨_, f2, f3, f4, f5, f6, f7⟩ := hf
    exact ⟨q, f2, f3, f4, f5, f6, f7⟩

/-- Witness of C18: a closed node whose goroutine stands at the loop head, with a
checker that does not ask for the exit: the loop is left, a later `StartCheck`
starts a loop that is left at once, and the statistics stay. -/
theorem C18_close_stops_new_rounds_witness :
    closedNode.exit ≠ 0
    ∧ ({ node := closedNode, procs := [LoopPc.head] } : NodeRun).quiet = true
    ∧ (runNode { node := closedNode, procs := [LoopPc.head] }
        [NodeEvent.iterate 0 { isExit := false, probe := goodRound }, NodeEvent.step 0,
          NodeEvent.startCheck, NodeEvent.iterate 0 { isExit := false, probe := goodRound },
          NodeEvent.step 0]).node.total = closedNode.total :=
  ⟨by decide, by decide,
    ((C18_close_stops_new_rounds closedNode { node := closedNode, procs := [LoopPc.head] }
      [NodeEvent.iterate 0 { isExit := false, probe := goodRound }, NodeEvent.step 0,
        NodeEvent.startCheck, NodeEvent.iterate 0 { isExit := false, probe := goodRound },
        NodeEvent.step 0] (by decide)).2.2.2.2.2 (by decide)).2.1⟩

set_option maxRecDepth 100000 in
/-- C18 (fails on the code as stated): on a fresh node, `StartCheck` is called,
the loop head lets a round begin, and `Close` is called before the round has
written anything: the exit flag is 1 and `total`, `okcnt`, `usability`, `last`
are 0. The round is not interrupted: after its atomic operations the exit flag
is still 1 and `total = 1`, `okcnt = 1`, `usability = 100`, `last = 1000`. -/
theorem C18_round_in_flight_completes :
    (runNode freshRun (overtakenRound.take 3)).node.exit = 1
    ∧ (runNode freshRun (overtakenRound.take 3)).node.total = 0
    ∧ (runNode freshRun (overtakenRound.take 3)).node.okcnt = 0
    ∧ (runNode freshRun (overtakenRound.take 3)).node.usability = 0
    ∧ (runNode freshRun (overtakenRound.take 3)).node.last = 0
    ∧ (runNode freshRun (overtakenRound.take 3)).procs = [LoopPc.addTotal goodRound]
    ∧ (runNode freshRun overtakenRound).node.exit = 1
    ∧ (runNode freshRun overtakenRound).node.total = 1
    ∧ (runNode freshRun overtakenRound).node.okcnt = 1
    ∧ (runNode freshRun overtakenRound).node.usability = 100
    ∧ (runNode freshRun overtakenRound).node.last = 1000
    ∧ (runNode freshRun overtakenRound).procs = [LoopPc.head] := by
  decide

/-- C13 (fails on the code): two registries that hold exactly the nodes B
(usability 50, probed at 2000) and A (usability 80, probed at 3000) under the
distinct keys 10 and 12, flag clear, B visited first, with A `before` B. After
`Store(10, B); Store(12, A); Delete(5)` `Len()` is 1, nothing is sorted and
`GetSortList` returns B, A. After `Store(10, B); Store(12, A); Store(12, A)`
`Len()` is 3 and `GetSortList` panics. -/
theorem C13_two_nodes_stale_len :
    ∀ large : LargeSort,
      (rankHeap 2).before (rankHeap 0) = true
      ∧ staleTwoNodeRegistry.flags = 0
      ∧ staleTwoNodeRegistry.entries = [(10, Value.node 0), (12, Value.node 2)]
      ∧ staleTwoNodeRegistry.Len = 1
      ∧ (staleTwoNodeRegistry.GetSortList large rankHeap).2 = some [0, 2]
      ∧ restoredTwoNodeRegistry.flags = 0
      ∧ restoredTwoNodeRegistry.entries = [(10, Value.node 0), (12, Value.node 2)]
      ∧ restoredTwoNodeRegistry.Len = 3
      ∧ (restoredTwoNodeRegistry.GetSortList large rankHeap).2 = none :=
  fun _ => ⟨by decide, rfl, rfl, by decide, rfl, rfl, rfl, by decide, rfl⟩

end ProxyPool
